import Mathlib

/-!
Verification of the CodeClaw graph-structured session index
(`codeclaw/graph_index.py`) and its MCP query-serving layer
(`codeclaw/mcp_server.py`).

The Python code is shallowly embedded: Python dicts (which preserve
insertion order) become insertion-ordered association lists, Python
`int` becomes `Int` (with Python slice semantics where slicing occurs),
and text is modelled over Lean `String` / `List Char` with ASCII
semantics for lowercasing, whitespace and word characters.
-/

set_option autoImplicit false

/-! ## Python string primitives -/

/-- The six ASCII whitespace characters recognised by Python `str.strip()`. -/
def pyIsSpace (c : Char) : Bool :=
  c = ' ' || c = '\t' || c = '\n' || c = '\r' || c = (Char.ofNat 11) || c = (Char.ofNat 12)

/-- ASCII model of Python `str.lower()` on a single character. -/
def pyToLower (c : Char) : Char :=
  if 65 ≤ c.toNat ∧ c.toNat ≤ 90 then Char.ofNat (c.toNat + 32) else c

/-- Python `str.lower()`. -/
def pyLower (s : String) : String :=
  ⟨s.data.map pyToLower⟩

/-- Python `str.strip()` (no argument: strips whitespace from both ends). -/
def pyStripChars (cs : List Char) : List Char :=
  ((cs.dropWhile pyIsSpace).reverse.dropWhile pyIsSpace).reverse

/-- Python `str.strip()` on `String`. -/
def pyStrip (s : String) : String :=
  ⟨pyStripChars s.data⟩

/-- `startsWithChars hay needle` holds when `needle` is a leading segment of `hay`. -/
def startsWithChars : List Char → List Char → Bool
  | _, [] => true
  | [], _ :: _ => false
  | h :: hs, n :: ns => h = n && startsWithChars hs ns

/-- Python substring containment `needle in hay` on character lists. -/
def containsChars : List Char → List Char → Bool
  | hay, needle =>
    startsWithChars hay needle ||
      match hay with
      | [] => false
      | _ :: t => containsChars t needle

/-- Python substring containment on `String`. -/
def pyContains (hay needle : String) : Bool :=
  containsChars hay.data needle.data

/-! ## Node naming (`graph_index.py` lines 128–142) -/

/-- `_normalize_node`: `label.strip().lower()`. -/
def normalizeNode (label : String) : String :=
  pyLower (pyStrip label)

/-- `_tool_node`: `"tool:" + _normalize_node(name)`. -/
def toolNode (name : String) : String :=
  "tool:" ++ normalizeNode name

/-- `_file_node`: `"file:" + _normalize_node(name)`. -/
def fileNode (name : String) : String :=
  "file:" ++ normalizeNode name

/-- `_error_node`: `"error:" + _normalize_node(msg[:60])`. -/
def errorNode (msg : String) : String :=
  "error:" ++ normalizeNode ⟨msg.data.take 60⟩

example : toolNode " Bash " = "tool:bash" := by decide
example : normalizeNode "  Bash  " = "bash" := by decide

/-! ## File-reference extraction (`graph_index.py` lines 145–158)

The pattern `_FILE_RE` is the regex whose matches are sequences of word
characters, dots, slashes and hyphens that end in a dot followed by one to
six word characters.  `pyFindAll` models `re.findall` for this pattern:
scan left to right; at each position, the candidate run is the longest
stretch of pattern characters, the greedy group backtracks to the last dot
of the run that is followed by a word character, and the trailing `\w`
repetition then consumes up to six word characters. -/

/-- ASCII model of the regex class `\w`. -/
def isWordChar (c : Char) : Bool :=
  c.isAlphanum || c = '_'

/-- The character class `[\w./\-]` of `_FILE_RE`. -/
def isFileTokChar (c : Char) : Bool :=
  isWordChar c || c = '.' || c = '/' || c = '-'

/-- Largest index `k ≥ 1` of the run `R` holding a dot that is immediately
followed by a word character (the split point the greedy group backtracks to). -/
def findDotSplit (R : List Char) : Option Nat :=
  (List.range R.length).reverse.find? (fun k =>
    decide (1 ≤ k) && (R.get? k == some '.') &&
      (match R.get? (k + 1) with
       | some c => isWordChar c
       | none => false))

/-- Attempt to match `_FILE_RE` at the head of `cs`; on success return the
matched token together with the rest of the input after the match. -/
def matchFileRef (cs : List Char) : Option (List Char × List Char) :=
  let R := cs.takeWhile isFileTokChar
  match findDotSplit R with
  | none => none
  | some k =>
    let wlen := min 6 ((R.drop (k + 1)).takeWhile isWordChar).length
    some (R.take (k + 1 + wlen), cs.drop (k + 1 + wlen))

theorem findDotSplit_one_le {R : List Char} {k : Nat} (h : findDotSplit R = some k) :
    1 ≤ k := by
  have := List.find?_some h
  simp only [Bool.and_eq_true, decide_eq_true_eq] at this
  exact this.1.1

theorem matchFileRef_rest_lt {cs : List Char} {p : List Char × List Char}
    (h : matchFileRef cs = some p) : p.2.length < cs.length := by
  unfold matchFileRef at h
  cases hk : findDotSplit (cs.takeWhile isFileTokChar) with
  | none => simp [hk] at h
  | some k =>
    have hk1 : 1 ≤ k := findDotSplit_one_le hk
    have hmem : k ∈ List.range (cs.takeWhile isFileTokChar).length := by
      have := List.mem_of_find?_eq_some hk
      simpa using this
    have hklt : k < (cs.takeWhile isFileTokChar).length := by simpa using hmem
    have hle : (cs.takeWhile isFileTokChar).length ≤ cs.length :=
      (List.takeWhile_sublist _).length_le
    simp only [hk] at h
    injection h with h2
    subst h2
    simp only [List.length_drop]
    omega

/-- Worker for `pyFindAll`; one unit of fuel is spent per scan step, and every
step consumes at least one input character, so `cs.length` fuel suffices. -/
def pyFindAllFuel : Nat → List Char → List (List Char)
  | _, [] => []
  | 0, _ => []
  | fuel + 1, c :: t =>
    match matchFileRef (c :: t) with
    | some p => p.1 :: pyFindAllFuel fuel p.2
    | none => pyFindAllFuel fuel t

/-- `re.findall(_FILE_RE, ·)`: try a match at every position, resuming after
the end of each successful match. -/
def pyFindAll (cs : List Char) : List (List Char) :=
  pyFindAllFuel cs.length cs

/-- `_extract_file_refs`: regex matches filtered to those containing a slash
or a dot, capped at five. -/
def extract_file_refs (text : String) : List String :=
  (((pyFindAll text.data).filter (fun m => m.contains '/' || m.contains '.')).take 5).map
    (fun m => ⟨m⟩)

example : extract_file_refs "see src/auth.py and x.py" = ["src/auth.py", "x.py"] := by decide
example : extract_file_refs "src/main" = [] := by decide
example : extract_file_refs "a.toolong7chars" = ["a.toolon"] := by decide

/-! ## Error-reference extraction (`graph_index.py` lines 145–158) -/

/-- Worker for `pySplitlines`; each step emits one line and consumes at least
one character, so `cs.length` fuel suffices. -/
def pySplitlinesFuel : Nat → List Char → List (List Char)
  | _, [] => []
  | 0, cs => [cs]
  | fuel + 1, cs =>
    let line := cs.takeWhile (fun c => !(c = '\n' || c = '\r'))
    match cs.drop line.length with
    | [] => [line]
    | '\r' :: '\n' :: t => line :: pySplitlinesFuel fuel t
    | _ :: t => line :: pySplitlinesFuel fuel t

/-- Python `str.splitlines()` restricted to the line endings `\n`, `\r`,
`\r\n` (the only ones that occur in the embedded inputs). -/
def pySplitlines (cs : List Char) : List (List Char) :=
  pySplitlinesFuel cs.length cs

/-- `_ERROR_RE.search`: the line contains one of the four trigger words,
case-insensitively. -/
def errorLineMatches (line : List Char) : Bool :=
  let low := line.map pyToLower
  containsChars low "error".data || containsChars low "exception".data ||
    containsChars low "traceback".data || containsChars low "failed".data

/-- `_extract_error_refs`: lines matching `_ERROR_RE`, stripped and truncated
to sixty characters, capped at three. -/
def extract_error_refs (text : String) : List String :=
  (((pySplitlines text.data).filter errorLineMatches).map
    (fun l => String.mk ((pyStripChars l).take 60))).take 3

example : extract_error_refs "ok\nError: boom\nfine" = ["Error: boom"] := by decide

/-! ## Session records

A session dict is modelled structurally; an `Option` field is `none` when the
corresponding key is absent.  `Message.content` and `ToolUse` fields are kept
as plain strings because the code immediately coerces them with
`str(·.get(key, ""))`. -/

structure ToolUse where
  tool : String
  input : String
deriving DecidableEq

structure Message where
  role : Option String
  content : String
  tool_uses : List ToolUse
deriving DecidableEq

structure Session where
  session_id : Option String
  project : Option String
  trajectory_type : Option String
  model : Option String
  start_time : Option String
  messages : Option (List Message)
deriving DecidableEq

/-- Python truthiness of the session dict: at least one key is present. -/
def Session.truthy (s : Session) : Bool :=
  s.session_id.isSome || s.project.isSome || s.trajectory_type.isSome ||
    s.model.isSome || s.start_time.isSome || s.messages.isSome

/-! ## Insertion-ordered association lists (Python dicts) -/

/-- Lookup in an insertion-ordered association list. -/
def alistFind {α : Type} (m : List (String × α)) (k : String) : Option α :=
  (m.find? (fun p => p.1 == k)).map (fun p => p.2)

/-- Update in place when the key is present, append otherwise — exactly how a
Python dict mutation behaves with respect to insertion order. -/
def alistSet {α : Type} : List (String × α) → String → α → List (String × α)
  | [], k, v => [(k, v)]
  | p :: rest, k, v => if p.1 == k then (k, v) :: rest else p :: alistSet rest k v

/-! ## Pure-Python graph backend (`_PureGraph`, `graph_index.py` lines 55–116) -/

structure EdgeAttrs where
  weight : Nat
  rel : String
deriving DecidableEq

/-- Two-level lookup `adjacency.get(src, {}).get(dst)`, shared by both
backends' adjacency structures. -/
def outFind (out : List (String × List (String × EdgeAttrs))) (src dst : String) :
    Option EdgeAttrs :=
  alistFind ((alistFind out src).getD []) dst

structure PureGraph where
  out : List (String × List (String × EdgeAttrs))
  inn : List (String × List String)
deriving DecidableEq

def PureGraph.empty : PureGraph := ⟨[], []⟩

/-- `_PureGraph.add_edge`, including the defaultdict side effects: reading
`self._out[src]` and `self._in[dst]` materialises those entries, and the two
trailing guards create empty `_in[src]` / `_out[dst]` entries. -/
def PureGraph.add_edge (g : PureGraph) (src dst rel : String) : PureGraph :=
  let srcAdj := (alistFind g.out src).getD []
  let out1 :=
    match alistFind srcAdj dst with
    | some attrs => alistSet g.out src (alistSet srcAdj dst ⟨attrs.weight + 1, attrs.rel⟩)
    | none => alistSet g.out src (alistSet srcAdj dst ⟨1, rel⟩)
  let dstPreds := (alistFind g.inn dst).getD []
  let inn1 := alistSet g.inn dst (if dstPreds.contains src then dstPreds else dstPreds ++ [src])
  let inn2 := if (alistFind inn1 src).isSome then inn1 else inn1 ++ [(src, [])]
  let out2 := if (alistFind out1 dst).isSome then out1 else out1 ++ [(dst, [])]
  ⟨out2, inn2⟩

def PureGraph.has_edge (g : PureGraph) (src dst : String) : Bool :=
  (outFind g.out src dst).isSome

def PureGraph.successors (g : PureGraph) (node : String) : List String :=
  ((alistFind g.out node).getD []).map (fun p => p.1)

def PureGraph.predecessors (g : PureGraph) (node : String) : List String :=
  (alistFind g.inn node).getD []

def PureGraph.containsNode (g : PureGraph) (node : String) : Bool :=
  (alistFind g.out node).isSome || (alistFind g.inn node).isSome

def PureGraph.number_of_nodes (g : PureGraph) : Nat :=
  ((g.out.map (fun p => p.1)) ++ (g.inn.map (fun p => p.1))).dedup.length

def PureGraph.number_of_edges (g : PureGraph) : Nat :=
  (g.out.map (fun p => p.2.length)).sum

/-- `_neighbors` for the pure backend: successors then predecessors, empty for
an absent node. -/
def PureGraph.neighbors (g : PureGraph) (node : String) : List String :=
  if g.containsNode node then g.successors node ++ g.predecessors node else []

/-- Weight observer: `0` encodes an absent edge (fresh edges start at `1`). -/
def PureGraph.getWeight (g : PureGraph) (src dst : String) : Nat :=
  match outFind g.out src dst with
  | some attrs => attrs.weight
  | none => 0

/-- Relation-tag observer. -/
def PureGraph.getRel (g : PureGraph) (src dst : String) : Option String :=
  (outFind g.out src dst).map (fun attrs => attrs.rel)

/-! ## networkx backend

Modelled from the spec: the repository's `_add_edge` for the networkx
backend (`graph_index.py` lines 32–36) manipulates an `nx.DiGraph`, an
external collaborator whose sources are not part of this repository.  Per
the spec's graph-abstraction contract, `DiGraph` is a simple directed graph
keeping a node set and, for each edge, an attribute record; `add_edge`
inserts both endpoints and the edge with the given attributes. -/

structure NXGraph where
  nodes : List String
  succ : List (String × List (String × EdgeAttrs))
deriving DecidableEq

def NXGraph.empty : NXGraph := ⟨[], []⟩

def nxAddNode (ns : List String) (n : String) : List String :=
  if ns.contains n then ns else ns ++ [n]

def NXGraph.has_edge (g : NXGraph) (src dst : String) : Bool :=
  (outFind g.succ src dst).isSome

/-- `nx.DiGraph.add_edge(src, dst, **attrs)` as used here (only on absent
edges, always with a fresh attribute record). -/
def NXGraph.insert_edge (g : NXGraph) (src dst : String) (attrs : EdgeAttrs) : NXGraph :=
  ⟨nxAddNode (nxAddNode g.nodes src) dst,
    alistSet g.succ src (alistSet ((alistFind g.succ src).getD []) dst attrs)⟩

/-- `graph[src][dst]["weight"] = graph[src][dst].get("weight", 1) + 1` — every
stored edge carries a weight, so the `.get` default never fires. -/
def NXGraph.bump_weight (g : NXGraph) (src dst : String) : NXGraph :=
  match alistFind g.succ src with
  | none => g
  | some adj =>
    match alistFind adj dst with
    | none => g
    | some attrs => ⟨g.nodes, alistSet g.succ src (alistSet adj dst ⟨attrs.weight + 1, attrs.rel⟩)⟩

/-- The repository's `_add_edge` (networkx variant, lines 32–36). -/
def NXGraph.add_edge (g : NXGraph) (src dst rel : String) : NXGraph :=
  if g.has_edge src dst then g.bump_weight src dst
  else g.insert_edge src dst ⟨1, rel⟩

def NXGraph.number_of_edges (g : NXGraph) : Nat :=
  (g.succ.map (fun p => p.2.length)).sum

def NXGraph.getWeight (g : NXGraph) (src dst : String) : Nat :=
  match outFind g.succ src dst with
  | some attrs => attrs.weight
  | none => 0

def NXGraph.getRel (g : NXGraph) (src dst : String) : Option String :=
  (outFind g.succ src dst).map (fun attrs => attrs.rel)

/-! ## Session indexer (`_index_session`, `graph_index.py` lines 161–200)

`_index_session` only reads the session when deciding which edges to add, so
it is embedded as the list of `(src, dst, rel)` insertions it performs, in
program order, folded through `add_edge`. -/

/-- `is_successful = session.get("trajectory_type") not in ("correction_loop",)`. -/
def session_is_successful (s : Session) : Bool :=
  !(s.trajectory_type == some "correction_loop")

/-- Edge insertions performed while scanning one message: file self-loops
from the content, error self-loops for `user`/`tool_result` messages, then
`file → tool` edges from each tool-use input. -/
def messageEdgeOps (m : Message) : List (String × String × String) :=
  ((extract_file_refs m.content).map (fun f => (fileNode f, fileNode f, "self")))
  ++ (if m.role == some "user" || m.role == some "tool_result" then
        (extract_error_refs m.content).map (fun e => (errorNode e, errorNode e, "self"))
      else [])
  ++ m.tool_uses.flatMap (fun tu =>
        let name := pyStrip tu.tool
        if name = "" then []
        else (extract_file_refs tu.input).map (fun f => (fileNode f, toolNode name, "accessed_by")))

/-- The per-session tool sequence `tool_seq` (flattened across messages,
skipping empty tool names). -/
def sessionToolNodes (s : Session) : List String :=
  (s.messages.getD []).flatMap (fun m =>
    m.tool_uses.filterMap (fun tu =>
      let name := pyStrip tu.tool
      if name = "" then none else some (toolNode name)))

/-- Consecutive pairs of the tool sequence (`range(len(tool_seq) - 1)`). -/
def transitionPairs (s : Session) : List (String × String) :=
  (sessionToolNodes s).zip (sessionToolNodes s).tail

/-- All edge insertions of `_index_session`, in program order. -/
def sessionEdgeOps (s : Session) : List (String × String × String) :=
  ((s.messages.getD []).flatMap messageEdgeOps)
  ++ (transitionPairs s).map (fun p =>
        (p.1, p.2, if session_is_successful s then "led_to_success" else "co-occurs"))

def indexSessionPure (g : PureGraph) (s : Session) : PureGraph :=
  (sessionEdgeOps s).foldl (fun g op => g.add_edge op.1 op.2.1 op.2.2) g

def indexSessionNX (g : NXGraph) (s : Session) : NXGraph :=
  (sessionEdgeOps s).foldl (fun g op => g.add_edge op.1 op.2.1 op.2.2) g

/-! ## GraphIndex (`graph_index.py` lines 203–275)

The pure-Python backend is the one whose sources ship with the repository,
so `GraphIndex` is embedded over `PureGraph`.  `add_session` takes one extra
string argument modelling `str(id(session))`, the fallback identifier Python
uses when the `session_id` key is missing. -/

structure GraphIndex where
  graph : PureGraph
  node_to_sessions : List (String × List String)
  sessions : List (String × Session)
deriving DecidableEq

def GraphIndex.empty : GraphIndex := ⟨PureGraph.empty, [], []⟩

/-- One step of `add_session`'s contributor bookkeeping: append `sid` to the
tool node's list unless already present (the defaultdict read materialises
the list). -/
def addContrib (m : List (String × List String)) (sid tnode : String) :
    List (String × List String) :=
  let cur := (alistFind m tnode).getD []
  if cur.contains sid then m else alistSet m tnode (cur ++ [sid])

/-- `GraphIndex.add_session`; `fallback` stands for `str(id(session))`. -/
def GraphIndex.add_session (st : GraphIndex) (s : Session) (fallback : String) :
    GraphIndex :=
  let g := indexSessionPure st.graph s
  let sid := s.session_id.getD fallback
  ⟨g,
    (sessionToolNodes s).foldl (fun m t => addContrib m sid t) st.node_to_sessions,
    alistSet st.sessions sid s⟩

/-- `GraphIndex.build`: reset every piece of state, then `add_session` each
input in order.  The prior state is an argument only to witness that it is
discarded. -/
def GraphIndex.build (_st : GraphIndex) (ss : List (Session × String)) : GraphIndex :=
  ss.foldl (fun st p => st.add_session p.1 p.2) GraphIndex.empty

structure GIStats where
  nodes : Nat
  edges : Nat
  sessions : Nat
  networkx_available : Bool
deriving DecidableEq

def GraphIndex.stats (st : GraphIndex) : GIStats :=
  ⟨st.graph.number_of_nodes, st.graph.number_of_edges, st.sessions.length, false⟩

/-! ## Query (`GraphIndex.query`, `graph_index.py` lines 242–267) -/

/-- `candidate_scores[sid] += d` on a `defaultdict(int)`: update in place when
present, append (first appearance) otherwise. -/
def bumpScore (m : List (String × Nat)) (sid : String) (d : Nat) : List (String × Nat) :=
  match alistFind m sid with
  | some v => alistSet m sid (v + d)
  | none => m ++ [(sid, d)]

/-- The sequence of `(session_id, points)` increments the query loops perform,
in program order: per context node, 2 points per direct contributor, then 1
point per contributor of each graph neighbor. -/
def GraphIndex.bumpOps (st : GraphIndex) (context_nodes : List String) :
    List (String × Nat) :=
  context_nodes.flatMap (fun node =>
    let norm := normalizeNode node
    (((alistFind st.node_to_sessions norm).getD []).map (fun sid => (sid, 2)))
    ++ (st.graph.neighbors norm).flatMap (fun nb =>
          ((alistFind st.node_to_sessions nb).getD []).map (fun sid => (sid, 1))))

/-- The `candidate_scores` map after both loops. -/
def GraphIndex.candidate_scores (st : GraphIndex) (context_nodes : List String) :
    List (String × Nat) :=
  (st.bumpOps context_nodes).foldl (fun m p => bumpScore m p.1 p.2) []

/-- Stable descending-score insertion: an element moves past exactly the
entries of strictly larger score, which is observationally Python's stable
`sorted(..., key=lambda x: -x[1])`. -/
def insertDesc (p : String × Nat) : List (String × Nat) → List (String × Nat)
  | [] => [p]
  | q :: qs => if p.2 < q.2 then q :: insertDesc p qs else p :: q :: qs

def sortByScoreDesc : List (String × Nat) → List (String × Nat)
  | [] => []
  | p :: ps => insertDesc p (sortByScoreDesc ps)

/-- Python list slicing `xs[:n]` for an `int` bound `n` (a negative bound
counts from the end). -/
def pySliceTake {α : Type} (n : Int) (xs : List α) : List α :=
  if n < 0 then xs.take (xs.length - n.natAbs) else xs.take n.toNat

/-- `GraphIndex.query`. -/
def GraphIndex.query (st : GraphIndex) (context_nodes : List String)
    (max_results : Int) : List Session :=
  if context_nodes = [] then []
  else
    let ranked := sortByScoreDesc (st.candidate_scores context_nodes)
    (pySliceTake max_results ranked).filterMap (fun p =>
      match alistFind st.sessions p.1 with
      | some s => if s.truthy then some s else none
      | none => none)

/-! ## MCP server layer (`mcp_server.py`) -/

/-- `_session_summary` (lines 53–72). -/
structure SessionSummary where
  session_id : Option String
  project : Option String
  trajectory_type : Option String
  model : Option String
  start_time : Option String
  message_count : Nat
  tool_sequence : List String
  rank : Option Nat
deriving DecidableEq

/-- The flattened nonempty stripped tool names of a session. -/
def sessionToolNames (s : Session) : List String :=
  (s.messages.getD []).flatMap (fun m =>
    m.tool_uses.filterMap (fun tu =>
      let name := pyStrip tu.tool
      if name = "" then none else some name))

def session_summary (s : Session) (rank : Option Nat) : SessionSummary :=
  ⟨s.session_id, s.project, s.trajectory_type, s.model, s.start_time,
    (s.messages.getD []).length, (sessionToolNames s).take 20, rank⟩

/-- Split at the first colon; `none` when no colon occurs (`":" not in lowered`). -/
def splitOnceOnColon : List Char → Option (List Char × List Char)
  | [] => none
  | c :: rest =>
    if c = ':' then some ([], rest)
    else (splitOnceOnColon rest).map (fun p => (c :: p.1, p.2))

/-- Python `str.split(",")`. -/
def splitOnComma : List Char → List (List Char)
  | [] => [[]]
  | c :: t =>
    if c = ',' then [] :: splitOnComma t
    else
      match splitOnComma t with
      | [] => [[c]]
      | l :: ls => (c :: l) :: ls

/-- `_parse_context_nodes` (lines 75–100).  The `seen` set always equals the
set of collected nodes, so membership is checked against the node list. -/
def parse_context_nodes (context : String) : List String × List String :=
  ((splitOnComma context.data).map (fun cs => String.mk cs)).foldl
    (fun acc raw =>
      let token := pyStrip raw
      if token = "" then acc
      else
        let lowered := pyLower token
        match splitOnceOnColon lowered.data with
        | none => (acc.1, acc.2 ++ [token])
        | some pv =>
          let pfx : String := ⟨pv.1⟩
          let value := pyStrip ⟨pv.2⟩
          if (pfx = "tool" || pfx = "file" || pfx = "error") && value ≠ "" then
            let normalized := pfx ++ ":" ++ value
            if acc.1.contains normalized then acc else (acc.1 ++ [normalized], acc.2)
          else (acc.1, acc.2 ++ [token]))
    ([], [])

example :
    parse_context_nodes "tool:bash, file:x.py, badtoken" =
      (["tool:bash", "file:x.py"], ["badtoken"]) := by decide

/-- Uniform success/error envelope of the serving layer. -/
inductive Envelope (ρ : Type) where
  | ok (results : ρ)
  | err (code : String) (message : String)
deriving DecidableEq

/-- Does a session match the needle (message content or project label)? -/
def sessionMatches (needle : String) (s : Session) : Bool :=
  ((s.messages.getD []).any (fun m => pyContains (pyLower m.content) needle))
  || pyContains (pyLower (s.project.getD "")) needle

/-- The scan-with-early-break loop of `search_past_solutions`. -/
def searchLoop (needle : String) (max_results : Int) :
    List Session → List SessionSummary → List SessionSummary
  | [], acc => acc
  | s :: rest, acc =>
    if !(sessionMatches needle s) then searchLoop needle max_results rest acc
    else
      let acc2 := acc ++ [session_summary s (some (acc.length + 1))]
      if max_results ≤ (acc2.length : Int) then acc2
      else searchLoop needle max_results rest acc2

/-- `search_past_solutions` (lines 224–260), as a function of the cached
session list. -/
def search_past_solutions (sessions : List Session) (query : String)
    (max_results : Int) : Envelope (List SessionSummary) :=
  let needle := pyStrip (pyLower query)
  if needle = "" then .err "invalid_query" "query must be non-empty text."
  else if max_results ≤ 0 then
    .err "invalid_max_results" "max_results must be greater than 0."
  else .ok (searchLoop needle max_results sessions [])

/-- Result shape of `find_similar_sessions`: an error envelope carries the
`invalid_tokens` list only on the `invalid_context` path. -/
inductive SimilarResult where
  | ok (results : List SessionSummary) (context_nodes invalid_tokens : List String)
  | err (code : String) (invalid_tokens : Option (List String))
deriving DecidableEq

/-- `find_similar_sessions` (lines 262–297), as a function of the cached
graph index. -/
def find_similar_sessions (idx : GraphIndex) (context : String)
    (max_results : Int) : SimilarResult :=
  if max_results ≤ 0 then .err "invalid_max_results" none
  else
    let parsed := parse_context_nodes context
    if parsed.1 = [] then .err "invalid_context" (some parsed.2)
    else
      .ok (((idx.query parsed.1 max_results).enum).map
            (fun p => session_summary p.2 (some (p.1 + 1))))
        parsed.1 parsed.2

/-! ## SessionIndexService.meta (`mcp_server.py` lines 179–202) -/

/-- Outcome of calling `index.stats()`: a well-formed dict, something that is
not a dict, or a raised exception. -/
inductive StatsCall where
  | dict (s : GIStats)
  | notDict
  | raises
deriving DecidableEq

/-- The slice of an index object `meta` interacts with. -/
structure ServiceIndex where
  statsCall : StatsCall
deriving DecidableEq

structure ServiceState where
  sessions : Option (List Session)
  index : Option ServiceIndex
  project_count : Nat
  refresh_count : Nat
  last_refresh_ms : Nat
deriving DecidableEq

/-- The snapshot `meta()` returns; `index_stats = none` models the empty
statistics dict `{}`. -/
structure MetaSnapshot where
  session_count : Nat
  project_count : Nat
  refresh_count : Nat
  last_refresh_ms : Nat
  index_stats : Option GIStats
deriving DecidableEq

/-- `SessionIndexService.meta`: counts under the lock, then a best-effort
`index.stats()` where an exception or a non-dict result degrades to `{}`. -/
def serviceMeta (st : ServiceState) : MetaSnapshot :=
  ⟨(st.sessions.getD []).length, st.project_count, st.refresh_count,
    st.last_refresh_ms,
    match st.index with
    | none => none
    | some ix =>
      match ix.statsCall with
      | .dict d => some d
      | .notDict => none
      | .raises => none⟩

/-! ## Concrete fixtures used by witnesses and counterexamples -/

/-- One assistant message carrying the given tool names. -/
def msgWithTools (names : List String) : Message :=
  ⟨some "assistant", "", names.map (fun n => ⟨n, ""⟩)⟩

/-- A plain test session with the given identifier and tool names. -/
def mkSession (sid : String) (tools : List String) : Session :=
  ⟨some sid, some "testproject", some "sft_clean", some "claude-3", none,
    some [msgWithTools tools]⟩

example : sessionToolNodes (mkSession "1" ["Read", "Bash"]) = ["tool:read", "tool:bash"] := by decide
example :
    (GraphIndex.empty.build [(mkSession "1" ["a", "b", "a", "b"], "f1")]).stats =
      ⟨2, 2, 1, false⟩ := by decide
example :
    ((GraphIndex.empty.build [(mkSession "1" ["a"], "f1"), (mkSession "2" ["a"], "f2")]).query
      ["tool:a"] (-1)).length = 1 := by decide
example :
    (GraphIndex.empty.build [(mkSession "1" ["a"], "f1"), (mkSession "2" ["a"], "f2")]).candidate_scores
      ["tool:a"] = [("1", 2), ("2", 2)] := by decide

/-! ## Normalization lemmas (claim C9) -/

theorem toNat_charOfNat_of_lt {n : Nat} (h : n < 55296) : (Char.ofNat n).toNat = n := by
  rw [Char.ofNat, dif_pos (Or.inl h)]
  rfl

theorem pyToLower_idem (c : Char) : pyToLower (pyToLower c) = pyToLower c := by
  unfold pyToLower
  by_cases h : 65 ≤ c.toNat ∧ c.toNat ≤ 90
  · rw [if_pos h]
    have ht : (Char.ofNat (c.toNat + 32)).toNat = c.toNat + 32 :=
      toNat_charOfNat_of_lt (by omega)
    rw [if_neg (by rw [ht]; omega)]
  · rw [if_neg h, if_neg h]

theorem pyIsSpace_false_of_ge {c : Char} (h : 33 ≤ c.toNat) : pyIsSpace c = false := by
  have hne : ∀ d : Char, d.toNat ≤ 32 → c ≠ d := by
    intro d hd he
    subst he
    omega
  have h1 := hne ' ' (by decide)
  have h2 := hne '\t' (by decide)
  have h3 := hne '\n' (by decide)
  have h4 := hne '\r' (by decide)
  have h5 := hne (Char.ofNat 11) (by decide)
  have h6 := hne (Char.ofNat 12) (by decide)
  simp [pyIsSpace, h1, h2, h3, h4, h5, h6]

theorem pyIsSpace_pyToLower (c : Char) : pyIsSpace (pyToLower c) = pyIsSpace c := by
  unfold pyToLower
  by_cases h : 65 ≤ c.toNat ∧ c.toNat ≤ 90
  · rw [if_pos h]
    have ht : (Char.ofNat (c.toNat + 32)).toNat = c.toNat + 32 :=
      toNat_charOfNat_of_lt (by omega)
    rw [pyIsSpace_false_of_ge (by rw [ht]; omega), pyIsSpace_false_of_ge (by omega)]
  · rw [if_neg h]

theorem pyStripChars_map_pyToLower (cs : List Char) :
    pyStripChars (cs.map pyToLower) = (pyStripChars cs).map pyToLower := by
  unfold pyStripChars
  have hfun : (pyIsSpace ∘ pyToLower) = pyIsSpace := funext pyIsSpace_pyToLower
  rw [List.dropWhile_map, hfun, ← List.map_reverse, List.dropWhile_map, hfun,
    ← List.map_reverse]

theorem getLast?_dropWhile {α : Type} (p : α → Bool) (l : List α)
    (h : l.dropWhile p ≠ []) : (l.dropWhile p).getLast? = l.getLast? := by
  induction l with
  | nil => simp at h
  | cons c t ih =>
    by_cases hc : p c
    · rw [List.dropWhile_cons, if_pos hc] at h ⊢
      rw [ih h]
      have ht : t ≠ [] := by
        intro he
        rw [he] at h
        simp at h
      cases t with
      | nil => exact absurd rfl ht
      | cons d u => simp
    · rw [List.dropWhile_cons, if_neg hc] at h ⊢

theorem dropWhile_eq_self_of_head? {α : Type} {p : α → Bool} {l : List α}
    (h : ∀ c, l.head? = some c → p c = false) : l.dropWhile p = l := by
  cases l with
  | nil => rfl
  | cons c t =>
    have := h c rfl
    simp [List.dropWhile_cons, this]

theorem pyStripChars_idem (cs : List Char) :
    pyStripChars (pyStripChars cs) = pyStripChars cs := by
  unfold pyStripChars
  set p := pyIsSpace with hp
  set l1 := cs.dropWhile p with hl1
  set xs := l1.reverse.dropWhile p with hxs
  have hd : xs.reverse.dropWhile p = xs.reverse := by
    apply dropWhile_eq_self_of_head?
    intro c hc
    rw [List.head?_reverse] at hc
    by_cases hxnil : xs = []
    · rw [hxnil] at hc
      simp at hc
    · rw [hxs, getLast?_dropWhile p l1.reverse (by rw [← hxs]; exact hxnil)] at hc
      rw [List.getLast?_reverse] at hc
      have hnot := List.head?_dropWhile_not p cs
      rw [← hl1] at hnot
      rw [hc] at hnot
      exact hnot
  rw [hd, List.reverse_reverse, hxs, List.dropWhile_idempotent]

theorem pyLower_idem (s : String) : pyLower (pyLower s) = pyLower s := by
  apply congrArg String.mk
  show (s.data.map pyToLower).map pyToLower = s.data.map pyToLower
  rw [List.map_map]
  congr 1
  funext c
  exact pyToLower_idem c

theorem pyStrip_pyLower (s : String) : pyStrip (pyLower s) = pyLower (pyStrip s) :=
  congrArg String.mk (pyStripChars_map_pyToLower s.data)

theorem pyStrip_idem (s : String) : pyStrip (pyStrip s) = pyStrip s :=
  congrArg String.mk (pyStripChars_idem s.data)

theorem normalizeNode_idem (s : String) :
    normalizeNode (normalizeNode s) = normalizeNode s := by
  unfold normalizeNode
  rw [pyStrip_pyLower, pyStrip_idem, pyLower_idem]

/-- C9: node naming is idempotent and insensitive to case and surrounding
whitespace: `_tool_node` prefixes the lowercased, stripped name; applying it
to an already-normalized name yields `"tool:" ++` that name unchanged; and
`_tool_node(" Bash ") = _tool_node("bash") = "tool:bash"`. -/
theorem tool_node_normalizes (s : String) :
    toolNode s = "tool:" ++ pyLower (pyStrip s) ∧
    toolNode (normalizeNode s) = "tool:" ++ normalizeNode s ∧
    toolNode " Bash " = toolNode "bash" ∧
    toolNode "bash" = "tool:bash" := by
  refine ⟨rfl, ?_, by decide, by decide⟩
  show "tool:" ++ normalizeNode (normalizeNode s) = "tool:" ++ normalizeNode s
  rw [normalizeNode_idem]

/-! ## Association-list lemmas -/

theorem alistFind_set_self {α : Type} (m : List (String × α)) (k : String) (v : α) :
    alistFind (alistSet m k v) k = some v := by
  induction m with
  | nil => simp [alistSet, alistFind]
  | cons p rest ih =>
    by_cases h : p.1 = k
    · simp [alistSet, alistFind, h]
    · have hb : (p.1 == k) = false := beq_eq_false_iff_ne.mpr h
      simp only [alistSet, hb, Bool.false_eq_true, if_false]
      simpa [alistFind, List.find?, hb] using ih

theorem alistFind_set_ne {α : Type} (m : List (String × α)) (k k2 : String) (v : α)
    (h : k2 ≠ k) : alistFind (alistSet m k v) k2 = alistFind m k2 := by
  induction m with
  | nil => simp [alistSet, alistFind, List.find?, beq_eq_false_iff_ne.mpr (Ne.symm h)]
  | cons p rest ih =>
    by_cases hp : p.1 = k
    · subst hp
      have hb : (p.1 == k2) = false := beq_eq_false_iff_ne.mpr (fun he => h he.symm)
      simp [alistSet, alistFind, List.find?, hb]
    · have hb : (p.1 == k) = false := beq_eq_false_iff_ne.mpr hp
      by_cases hq : p.1 = k2
      · have hb2 : (p.1 == k2) = true := beq_iff_eq.mpr hq
        simp only [alistSet, hb, Bool.false_eq_true, if_false]
        simp [alistFind, List.find?, hb2]
      · have hb2 : (p.1 == k2) = false := beq_eq_false_iff_ne.mpr hq
        simp only [alistSet, hb, Bool.false_eq_true, if_false]
        simpa [alistFind, List.find?, hb2] using ih

theorem alistFind_append_of_some {α : Type} {m1 : List (String × α)} (m2 : List (String × α))
    {k : String} {v : α} (h : alistFind m1 k = some v) :
    alistFind (m1 ++ m2) k = some v := by
  unfold alistFind at h ⊢
  rw [List.find?_append]
  cases hf : m1.find? (fun p => p.1 == k) with
  | none => rw [hf] at h; simp at h
  | some p => rw [hf] at h; simp_all

theorem alistFind_append_of_none {α : Type} {m1 : List (String × α)} (m2 : List (String × α))
    {k : String} (h : alistFind m1 k = none) :
    alistFind (m1 ++ m2) k = alistFind m2 k := by
  unfold alistFind at h ⊢
  rw [List.find?_append]
  cases hf : m1.find? (fun p => p.1 == k) with
  | none => simp
  | some p => rw [hf] at h; simp at h

theorem alistFind_singleton_self {α : Type} (k : String) (v : α) :
    alistFind [(k, v)] k = some v := by
  simp [alistFind, List.find?]

theorem alistFind_singleton_ne {α : Type} (k k2 : String) (v : α) (h : k2 ≠ k) :
    alistFind [(k, v)] k2 = none := by
  simp [alistFind, List.find?, beq_eq_false_iff_ne.mpr (Ne.symm h)]

theorem alistFind_eq_none_iff {α : Type} (m : List (String × α)) (k : String) :
    alistFind m k = none ↔ k ∉ m.map (fun p => p.1) := by
  constructor
  · intro h hk
    obtain ⟨p, hp, he⟩ := List.mem_map.mp hk
    cases hf : m.find? (fun q => q.1 == k) with
    | none =>
      rw [List.find?_eq_none] at hf
      exact absurd (beq_iff_eq.mpr he) (by simpa using hf p hp)
    | some q =>
      unfold alistFind at h
      rw [hf] at h
      simp at h
  · intro h
    unfold alistFind
    cases hf : m.find? (fun q => q.1 == k) with
    | none => rfl
    | some q =>
      have hq := List.find?_some hf
      have hqm := List.mem_of_find?_eq_some hf
      rw [beq_iff_eq] at hq
      exact absurd (List.mem_map.mpr ⟨q, hqm, hq⟩) h

theorem alistSet_keys_of_found {α : Type} {m : List (String × α)} {k : String} {v0 : α}
    (h : alistFind m k = some v0) (v : α) :
    (alistSet m k v).map (fun p => p.1) = m.map (fun p => p.1) := by
  induction m with
  | nil => simp [alistFind] at h
  | cons p rest ih =>
    by_cases hp : p.1 = k
    · simp [alistSet, hp]
    · have hb : (p.1 == k) = false := beq_eq_false_iff_ne.mpr hp
      simp only [alistSet, hb, Bool.false_eq_true, if_false, List.map_cons]
      rw [ih (by simpa [alistFind, List.find?, hb] using h)]

theorem alistSet_length_of_found {α : Type} {m : List (String × α)} {k : String} {v0 : α}
    (h : alistFind m k = some v0) (v : α) :
    (alistSet m k v).length = m.length := by
  induction m with
  | nil => simp [alistFind] at h
  | cons p rest ih =>
    by_cases hp : p.1 = k
    · simp [alistSet, hp]
    · have hb : (p.1 == k) = false := beq_eq_false_iff_ne.mpr hp
      simp only [alistSet, hb, Bool.false_eq_true, if_false, List.length_cons]
      rw [ih (by simpa [alistFind, List.find?, hb] using h)]

theorem alistSet_length_of_none {α : Type} {m : List (String × α)} {k : String}
    (h : alistFind m k = none) (v : α) :
    (alistSet m k v).length = m.length + 1 := by
  induction m with
  | nil => simp [alistSet]
  | cons p rest ih =>
    by_cases hp : p.1 = k
    · rw [alistFind_eq_none_iff] at h
      exact absurd (by simp [hp]) h
    · have hb : (p.1 == k) = false := beq_eq_false_iff_ne.mpr hp
      simp only [alistSet, hb, Bool.false_eq_true, if_false, List.length_cons]
      rw [ih (by simpa [alistFind, List.find?, hb] using h)]

/-! ## Edge-insertion lemmas (claims C2, C3) -/

theorem outFind_append_empty (out : List (String × List (String × EdgeAttrs)))
    (d x y : String) : outFind (out ++ [(d, [])]) x y = outFind out x y := by
  unfold outFind
  cases hf : alistFind out x with
  | some adj => rw [alistFind_append_of_some _ hf]
  | none =>
    rw [alistFind_append_of_none _ hf]
    by_cases hx : x = d
    · subst hx
      rw [alistFind_singleton_self]
      simp [alistFind]
    · rw [alistFind_singleton_ne _ _ _ hx]

theorem outFind_set (out : List (String × List (String × EdgeAttrs)))
    (src dst : String) (A : EdgeAttrs) (x y : String) :
    outFind (alistSet out src (alistSet ((alistFind out src).getD []) dst A)) x y =
      if x = src ∧ y = dst then some A else outFind out x y := by
  by_cases hx : x = src
  · subst hx
    unfold outFind
    rw [alistFind_set_self]
    simp only [Option.getD_some]
    by_cases hy : y = dst
    · subst hy
      rw [alistFind_set_self]
      simp
    · rw [alistFind_set_ne _ _ _ _ hy]
      simp [hy]
  · unfold outFind
    rw [alistFind_set_ne _ _ _ _ hx]
    simp [hx]


theorem outFind_add_edge_found {g : PureGraph} {src dst : String} {a : EdgeAttrs}
    (h : outFind g.out src dst = some a) (rel x y : String) :
    outFind (g.add_edge src dst rel).out x y =
      if x = src ∧ y = dst then some ⟨a.weight + 1, a.rel⟩ else outFind g.out x y := by
  unfold PureGraph.add_edge
  dsimp only
  rw [show alistFind ((alistFind g.out src).getD []) dst = some a from h]
  split
  · exact outFind_set _ _ _ _ _ _
  · rw [outFind_append_empty]
    exact outFind_set _ _ _ _ _ _

theorem outFind_add_edge_none {g : PureGraph} {src dst : String}
    (h : outFind g.out src dst = none) (rel x y : String) :
    outFind (g.add_edge src dst rel).out x y =
      if x = src ∧ y = dst then some ⟨1, rel⟩ else outFind g.out x y := by
  unfold PureGraph.add_edge
  dsimp only
  rw [show alistFind ((alistFind g.out src).getD []) dst = none from h]
  split
  · exact outFind_set _ _ _ _ _ _
  · rw [outFind_append_empty]
    exact outFind_set _ _ _ _ _ _

theorem getWeight_add_edge_self (g : PureGraph) (src dst rel : String) :
    (g.add_edge src dst rel).getWeight src dst = g.getWeight src dst + 1 := by
  unfold PureGraph.getWeight
  cases h : outFind g.out src dst with
  | some a => rw [outFind_add_edge_found h]; simp
  | none => rw [outFind_add_edge_none h]; simp

theorem getWeight_add_edge_other (g : PureGraph) (src dst rel x y : String)
    (h : ¬(x = src ∧ y = dst)) :
    (g.add_edge src dst rel).getWeight x y = g.getWeight x y := by
  unfold PureGraph.getWeight
  cases hf : outFind g.out src dst with
  | some a => rw [outFind_add_edge_found hf, if_neg h]
  | none => rw [outFind_add_edge_none hf, if_neg h]

theorem getRel_add_edge_of_has (g : PureGraph) (src dst rel : String)
    (h : g.has_edge src dst = true) :
    (g.add_edge src dst rel).getRel src dst = g.getRel src dst := by
  unfold PureGraph.has_edge at h
  cases hf : outFind g.out src dst with
  | none => rw [hf] at h; simp at h
  | some a =>
    unfold PureGraph.getRel
    rw [outFind_add_edge_found hf, hf]
    simp

theorem getRel_add_edge_create (g : PureGraph) (src dst rel : String)
    (h : g.has_edge src dst = false) :
    (g.add_edge src dst rel).getRel src dst = some rel := by
  unfold PureGraph.has_edge at h
  cases hf : outFind g.out src dst with
  | some a => rw [hf] at h; simp at h
  | none =>
    unfold PureGraph.getRel
    rw [outFind_add_edge_none hf]
    simp

theorem getRel_add_edge_other (g : PureGraph) (src dst rel x y : String)
    (h : ¬(x = src ∧ y = dst)) :
    (g.add_edge src dst rel).getRel x y = g.getRel x y := by
  unfold PureGraph.getRel
  cases hf : outFind g.out src dst with
  | some a => rw [outFind_add_edge_found hf, if_neg h]
  | none => rw [outFind_add_edge_none hf, if_neg h]

theorem has_edge_add_edge (g : PureGraph) (src dst rel x y : String) :
    (g.add_edge src dst rel).has_edge x y =
      (g.has_edge x y || (x == src && y == dst)) := by
  unfold PureGraph.has_edge
  by_cases hxy : x = src ∧ y = dst
  · obtain ⟨hx, hy⟩ := hxy
    subst hx
    subst hy
    cases hf : outFind g.out x y with
    | some a => rw [outFind_add_edge_found hf]; simp
    | none => rw [outFind_add_edge_none hf]; simp
  · have hb : (x == src && y == dst) = false := by
      rcases not_and_or.mp hxy with h | h <;> simp [h]
    cases hf : outFind g.out src dst with
    | some a => rw [outFind_add_edge_found hf, if_neg hxy, hb, Bool.or_false]
    | none => rw [outFind_add_edge_none hf, if_neg hxy, hb, Bool.or_false]

theorem sumLens_set_found {α : Type} {m : List (String × List α)} {k : String}
    {adj0 : List α} (h : alistFind m k = some adj0) (adj2 : List α) :
    ((alistSet m k adj2).map (fun p => p.2.length)).sum + adj0.length =
      (m.map (fun p => p.2.length)).sum + adj2.length := by
  induction m with
  | nil => simp [alistFind] at h
  | cons p rest ih =>
    by_cases hp : p.1 = k
    · have hb : (p.1 == k) = true := beq_iff_eq.mpr hp
      have he : adj0 = p.2 := by
        unfold alistFind at h
        simp [List.find?, hb] at h
        exact h.symm
      subst he
      simp only [alistSet, hb, if_true, List.map_cons, List.sum_cons]
      omega
    · have hb : (p.1 == k) = false := beq_eq_false_iff_ne.mpr hp
      have h2 : alistFind rest k = some adj0 := by
        unfold alistFind at h ⊢
        simpa [List.find?, hb] using h
      simp only [alistSet, hb, Bool.false_eq_true, if_false, List.map_cons, List.sum_cons]
      have := ih h2
      omega

theorem sumLens_set_none {α : Type} {m : List (String × List α)} {k : String}
    (h : alistFind m k = none) (adj2 : List α) :
    ((alistSet m k adj2).map (fun p => p.2.length)).sum =
      (m.map (fun p => p.2.length)).sum + adj2.length := by
  induction m with
  | nil => simp [alistSet]
  | cons p rest ih =>
    by_cases hp : p.1 = k
    · rw [alistFind_eq_none_iff] at h
      exact absurd (by simp [hp]) h
    · have hb : (p.1 == k) = false := beq_eq_false_iff_ne.mpr hp
      have h2 : alistFind rest k = none := by
        unfold alistFind at h ⊢
        simpa [List.find?, hb] using h
      simp only [alistSet, hb, Bool.false_eq_true, if_false, List.map_cons, List.sum_cons]
      have := ih h2
      omega

theorem edges_add_edge (g : PureGraph) (src dst rel : String) :
    (g.add_edge src dst rel).number_of_edges =
      g.number_of_edges + (if g.has_edge src dst then 0 else 1) := by
  unfold PureGraph.number_of_edges PureGraph.has_edge
  cases hf : outFind g.out src dst with
  | some a =>
    simp only [Option.isSome_some, if_true, Nat.add_zero]
    cases hsrc : alistFind g.out src with
    | none =>
      exfalso
      unfold outFind at hf
      rw [hsrc] at hf
      simp [alistFind] at hf
    | some adj =>
      have hadj : alistFind adj dst = some a := by
        unfold outFind at hf
        rw [hsrc] at hf
        exact hf
      have hout : (g.add_edge src dst rel).out =
            alistSet g.out src (alistSet adj dst ⟨a.weight + 1, a.rel⟩) ∨
          (g.add_edge src dst rel).out =
            alistSet g.out src (alistSet adj dst ⟨a.weight + 1, a.rel⟩) ++ [(dst, [])] := by
        unfold PureGraph.add_edge
        dsimp only
        rw [hsrc]
        simp only [Option.getD_some]
        rw [show alistFind adj dst = some a from hadj]
        split
        · exact Or.inl rfl
        · exact Or.inr rfl
      have hlen : (alistSet adj dst (⟨a.weight + 1, a.rel⟩ : EdgeAttrs)).length =
          adj.length := alistSet_length_of_found hadj _
      have hsum := sumLens_set_found hsrc
        (alistSet adj dst (⟨a.weight + 1, a.rel⟩ : EdgeAttrs))
      rw [hlen] at hsum
      rcases hout with hout | hout
      · rw [hout]
        omega
      · rw [hout, List.map_append, List.sum_append]
        simp only [List.map_cons, List.map_nil, List.sum_cons, List.sum_nil,
          List.length_nil]
        omega
  | none =>
    simp only [Option.isSome_none, Bool.false_eq_true, if_false]
    cases hsrc : alistFind g.out src with
    | none =>
      have hout : (g.add_edge src dst rel).out =
            alistSet g.out src (alistSet [] dst ⟨1, rel⟩) ∨
          (g.add_edge src dst rel).out =
            alistSet g.out src (alistSet [] dst ⟨1, rel⟩) ++ [(dst, [])] := by
        unfold PureGraph.add_edge
        dsimp only
        rw [hsrc]
        simp only [Option.getD_none]
        rw [show alistFind ([] : List (String × EdgeAttrs)) dst = none from rfl]
        split
        · exact Or.inl rfl
        · exact Or.inr rfl
      have hsum := sumLens_set_none hsrc (alistSet [] dst (⟨1, rel⟩ : EdgeAttrs))
      have hlen : (alistSet ([] : List (String × EdgeAttrs)) dst
          (⟨1, rel⟩ : EdgeAttrs)).length = 1 := rfl
      rw [hlen] at hsum
      rcases hout with hout | hout
      · rw [hout]
        omega
      · rw [hout, List.map_append, List.sum_append]
        simp only [List.map_cons, List.map_nil, List.sum_cons, List.sum_nil,
          List.length_nil]
        omega
    | some adj =>
      have hadj : alistFind adj dst = none := by
        unfold outFind at hf
        rw [hsrc] at hf
        exact hf
      have hout : (g.add_edge src dst rel).out =
            alistSet g.out src (alistSet adj dst ⟨1, rel⟩) ∨
          (g.add_edge src dst rel).out =
            alistSet g.out src (alistSet adj dst ⟨1, rel⟩) ++ [(dst, [])] := by
        unfold PureGraph.add_edge
        dsimp only
        rw [hsrc]
        simp only [Option.getD_some]
        rw [show alistFind adj dst = none from hadj]
        split
        · exact Or.inl rfl
        · exact Or.inr rfl
      have hlen : (alistSet adj dst (⟨1, rel⟩ : EdgeAttrs)).length = adj.length + 1 :=
        alistSet_length_of_none hadj _
      have hsum := sumLens_set_found hsrc (alistSet adj dst (⟨1, rel⟩ : EdgeAttrs))
      rw [hlen] at hsum
      rcases hout with hout | hout
      · rw [hout]
        omega
      · rw [hout, List.map_append, List.sum_append]
        simp only [List.map_cons, List.map_nil, List.sum_cons, List.sum_nil,
          List.length_nil]
        omega

theorem outFind_nx_add_edge_found {g : NXGraph} {src dst : String} {a : EdgeAttrs}
    (h : outFind g.succ src dst = some a) (rel x y : String) :
    outFind (g.add_edge src dst rel).succ x y =
      if x = src ∧ y = dst then some ⟨a.weight + 1, a.rel⟩ else outFind g.succ x y := by
  have hhe : g.has_edge src dst = true := by
    unfold NXGraph.has_edge
    rw [h]
    rfl
  unfold NXGraph.add_edge
  rw [if_pos hhe]
  unfold NXGraph.bump_weight
  cases hsrc : alistFind g.succ src with
  | none =>
    exfalso
    unfold outFind at h
    rw [hsrc] at h
    simp [alistFind] at h
  | some adj =>
    have hadj : alistFind adj dst = some a := by
      unfold outFind at h
      rw [hsrc] at h
      exact h
    dsimp only
    rw [hadj]
    dsimp only
    have hrw : adj = (alistFind g.succ src).getD [] := by
      rw [hsrc]
      rfl
    rw [hrw]
    exact outFind_set _ _ _ _ _ _

theorem outFind_nx_add_edge_none {g : NXGraph} {src dst : String}
    (h : outFind g.succ src dst = none) (rel x y : String) :
    outFind (g.add_edge src dst rel).succ x y =
      if x = src ∧ y = dst then some ⟨1, rel⟩ else outFind g.succ x y := by
  have hhe : g.has_edge src dst = false := by
    unfold NXGraph.has_edge
    rw [h]
    rfl
  unfold NXGraph.add_edge
  rw [if_neg (by simp [hhe])]
  unfold NXGraph.insert_edge
  dsimp only
  exact outFind_set _ _ _ _ _ _

theorem nx_getWeight_add_edge_self (g : NXGraph) (src dst rel : String) :
    (g.add_edge src dst rel).getWeight src dst = g.getWeight src dst + 1 := by
  unfold NXGraph.getWeight
  cases h : outFind g.succ src dst with
  | some a => rw [outFind_nx_add_edge_found h]; simp
  | none => rw [outFind_nx_add_edge_none h]; simp

theorem nx_getWeight_add_edge_other (g : NXGraph) (src dst rel x y : String)
    (h : ¬(x = src ∧ y = dst)) :
    (g.add_edge src dst rel).getWeight x y = g.getWeight x y := by
  unfold NXGraph.getWeight
  cases hf : outFind g.succ src dst with
  | some a => rw [outFind_nx_add_edge_found hf, if_neg h]
  | none => rw [outFind_nx_add_edge_none hf, if_neg h]

theorem nx_getRel_add_edge_of_has (g : NXGraph) (src dst rel : String)
    (h : g.has_edge src dst = true) :
    (g.add_edge src dst rel).getRel src dst = g.getRel src dst := by
  unfold NXGraph.has_edge at h
  cases hf : outFind g.succ src dst with
  | none => rw [hf] at h; simp at h
  | some a =>
    unfold NXGraph.getRel
    rw [outFind_nx_add_edge_found hf, hf]
    simp

theorem nx_getRel_add_edge_create (g : NXGraph) (src dst rel : String)
    (h : g.has_edge src dst = false) :
    (g.add_edge src dst rel).getRel src dst = some rel := by
  unfold NXGraph.has_edge at h
  cases hf : outFind g.succ src dst with
  | some a => rw [hf] at h; simp at h
  | none =>
    unfold NXGraph.getRel
    rw [outFind_nx_add_edge_none hf]
    simp

theorem nx_has_edge_add_edge (g : NXGraph) (src dst rel x y : String) :
    (g.add_edge src dst rel).has_edge x y =
      (g.has_edge x y || (x == src && y == dst)) := by
  unfold NXGraph.has_edge
  by_cases hxy : x = src ∧ y = dst
  · obtain ⟨hx, hy⟩ := hxy
    subst hx
    subst hy
    cases hf : outFind g.succ x y with
    | some a => rw [outFind_nx_add_edge_found hf]; simp
    | none => rw [outFind_nx_add_edge_none hf]; simp
  · have hb : (x == src && y == dst) = false := by
      rcases not_and_or.mp hxy with h | h <;> simp [h]
    cases hf : outFind g.succ src dst with
    | some a => rw [outFind_nx_add_edge_found hf, if_neg hxy, hb, Bool.or_false]
    | none => rw [outFind_nx_add_edge_none hf, if_neg hxy, hb, Bool.or_false]

theorem nx_edges_add_edge (g : NXGraph) (src dst rel : String) :
    (g.add_edge src dst rel).number_of_edges =
      g.number_of_edges + (if g.has_edge src dst then 0 else 1) := by
  unfold NXGraph.number_of_edges NXGraph.has_edge
  cases hf : outFind g.succ src dst with
  | some a =>
    simp only [Option.isSome_some, if_true, Nat.add_zero]
    cases hsrc : alistFind g.succ src with
    | none =>
      exfalso
      unfold outFind at hf
      rw [hsrc] at hf
      simp [alistFind] at hf
    | some adj =>
      have hadj : alistFind adj dst = some a := by
        unfold outFind at hf
        rw [hsrc] at hf
        exact hf
      have hout : (g.add_edge src dst rel).succ =
          alistSet g.succ src (alistSet adj dst ⟨a.weight + 1, a.rel⟩) := by
        unfold NXGraph.add_edge
        rw [if_pos (by unfold NXGraph.has_edge; rw [hf]; rfl)]
        unfold NXGraph.bump_weight
        rw [hsrc]
        dsimp only
        rw [hadj]
      have hlen : (alistSet adj dst (⟨a.weight + 1, a.rel⟩ : EdgeAttrs)).length =
          adj.length := alistSet_length_of_found hadj _
      have hsum := sumLens_set_found hsrc
        (alistSet adj dst (⟨a.weight + 1, a.rel⟩ : EdgeAttrs))
      rw [hlen] at hsum
      rw [hout]
      omega
  | none =>
    simp only [Option.isSome_none, Bool.false_eq_true, if_false]
    have hout : (g.add_edge src dst rel).succ =
        alistSet g.succ src (alistSet ((alistFind g.succ src).getD []) dst ⟨1, rel⟩) := by
      unfold NXGraph.add_edge
      rw [if_neg (by unfold NXGraph.has_edge; rw [hf]; simp)]
      rfl
    rw [hout]
    cases hsrc : alistFind g.succ src with
    | none =>
      simp only [Option.getD_none]
      have hsum := sumLens_set_none hsrc
        (alistSet ([] : List (String × EdgeAttrs)) dst (⟨1, rel⟩ : EdgeAttrs))
      have hlen : (alistSet ([] : List (String × EdgeAttrs)) dst
          (⟨1, rel⟩ : EdgeAttrs)).length = 1 := rfl
      rw [hlen] at hsum
      omega
    | some adj =>
      simp only [Option.getD_some]
      have hadj : alistFind adj dst = none := by
        unfold outFind at hf
        rw [hsrc] at hf
        exact hf
      have hlen : (alistSet adj dst (⟨1, rel⟩ : EdgeAttrs)).length = adj.length + 1 :=
        alistSet_length_of_none hadj _
      have hsum := sumLens_set_found hsrc (alistSet adj dst (⟨1, rel⟩ : EdgeAttrs))
      rw [hlen] at hsum
      omega

/-- Number of `_add_edge` calls with source `x` and destination `y` in an
op list. -/
def countKey (ops : List (String × String × String)) (x y : String) : Nat :=
  (ops.filter (fun op => op.1 == x && op.2.1 == y)).length

theorem indexSessionPure_eq_foldl (g : PureGraph) (s : Session) :
    indexSessionPure g s =
      (sessionEdgeOps s).foldl (fun g op => g.add_edge op.1 op.2.1 op.2.2) g := rfl

theorem getWeight_foldl_ops (ops : List (String × String × String)) (g : PureGraph)
    (x y : String) :
    ((ops.foldl (fun g op => g.add_edge op.1 op.2.1 op.2.2) g)).getWeight x y =
      g.getWeight x y + countKey ops x y := by
  induction ops generalizing g with
  | nil => simp [countKey]
  | cons op rest ih =>
    rw [List.foldl_cons, ih]
    by_cases h : x = op.1 ∧ y = op.2.1
    · obtain ⟨hx, hy⟩ := h
      rw [hx, hy, getWeight_add_edge_self]
      have : countKey (op :: rest) op.1 op.2.1 = countKey rest op.1 op.2.1 + 1 := by
        simp [countKey, List.filter_cons]
      rw [hx, hy] at *
      omega
    · rw [getWeight_add_edge_other _ _ _ _ _ _ h]
      have hb : (op.1 == x && op.2.1 == y) = false := by
        rcases not_and_or.mp h with h2 | h2 <;>
          simp [beq_eq_false_iff_ne.mpr (fun he => h2 he.symm)]
      have : countKey (op :: rest) x y = countKey rest x y := by
        simp [countKey, List.filter_cons, hb]
      omega

theorem has_edge_foldl_ops (ops : List (String × String × String)) (g : PureGraph)
    (x y : String) :
    (ops.foldl (fun g op => g.add_edge op.1 op.2.1 op.2.2) g).has_edge x y =
      (g.has_edge x y || ops.any (fun op => x == op.1 && y == op.2.1)) := by
  induction ops generalizing g with
  | nil => simp
  | cons op rest ih =>
    rw [List.foldl_cons, ih, has_edge_add_edge]
    simp [Bool.or_assoc]

theorem edges_foldl_ops_of_present (ops : List (String × String × String))
    (g : PureGraph) (h : ∀ op ∈ ops, g.has_edge op.1 op.2.1 = true) :
    (ops.foldl (fun g op => g.add_edge op.1 op.2.1 op.2.2) g).number_of_edges =
      g.number_of_edges := by
  induction ops generalizing g with
  | nil => rfl
  | cons op rest ih =>
    rw [List.foldl_cons]
    have hop : g.has_edge op.1 op.2.1 = true := h op (List.mem_cons_self _ _)
    have h2 : ∀ op2 ∈ rest, (g.add_edge op.1 op.2.1 op.2.2).has_edge op2.1 op2.2.1 = true := by
      intro op2 hmem
      rw [has_edge_add_edge, h op2 (List.mem_cons_of_mem _ hmem)]
      rfl
    rw [ih _ h2, edges_add_edge, hop]
    simp

theorem getRel_foldl_ops_preserve (ops : List (String × String × String))
    (g : PureGraph) (x y : String) (h : g.has_edge x y = true) :
    (ops.foldl (fun g op => g.add_edge op.1 op.2.1 op.2.2) g).getRel x y =
      g.getRel x y := by
  induction ops generalizing g with
  | nil => rfl
  | cons op rest ih =>
    rw [List.foldl_cons]
    have hmono : (g.add_edge op.1 op.2.1 op.2.2).has_edge x y = true := by
      rw [has_edge_add_edge, h]
      rfl
    rw [ih _ hmono]
    by_cases hk : x = op.1 ∧ y = op.2.1
    · obtain ⟨hx, hy⟩ := hk
      rw [hx, hy]
      rw [hx, hy] at h
      exact getRel_add_edge_of_has _ _ _ _ h
    · exact getRel_add_edge_other _ _ _ _ _ _ hk

theorem getRel_foldl_ops_create (ops : List (String × String × String))
    (g : PureGraph) (x y r : String)
    (hg : g.has_edge x y = false)
    (hall : ∀ op ∈ ops, op.1 = x → op.2.1 = y → op.2.2 = r)
    (hmem : ops.any (fun op => x == op.1 && y == op.2.1) = true) :
    (ops.foldl (fun g op => g.add_edge op.1 op.2.1 op.2.2) g).getRel x y = some r := by
  induction ops generalizing g with
  | nil => simp at hmem
  | cons op rest ih =>
    rw [List.foldl_cons]
    by_cases hk : x = op.1 ∧ y = op.2.1
    · obtain ⟨hx, hy⟩ := hk
      have hrel : op.2.2 = r := hall op (List.mem_cons_self _ _) hx.symm hy.symm
      have hhas : (g.add_edge op.1 op.2.1 op.2.2).has_edge x y = true := by
        rw [has_edge_add_edge]
        simp [hx, hy]
      rw [getRel_foldl_ops_preserve _ _ _ _ hhas]
      rw [hx, hy]
      rw [hx, hy] at hg
      rw [getRel_add_edge_create _ _ _ _ hg, hrel]
    · have hg2 : (g.add_edge op.1 op.2.1 op.2.2).has_edge x y = false := by
        rw [has_edge_add_edge, hg]
        have hb : (x == op.1 && y == op.2.1) = false := by
          rcases not_and_or.mp hk with h2 | h2 <;> simp [h2]
        rw [hb]
        rfl
      have hmem2 : rest.any (fun op => x == op.1 && y == op.2.1) = true := by
        rw [List.any_cons] at hmem
        have hb : (x == op.1 && y == op.2.1) = false := by
          rcases not_and_or.mp hk with h2 | h2 <;> simp [h2]
        rw [hb] at hmem
        simpa using hmem
      exact ih _ hg2 (fun op2 hm => hall op2 (List.mem_cons_of_mem _ hm)) hmem2

theorem nx_getWeight_foldl_ops (ops : List (String × String × String)) (g : NXGraph)
    (x y : String) :
    (ops.foldl (fun g op => g.add_edge op.1 op.2.1 op.2.2) g).getWeight x y =
      g.getWeight x y + countKey ops x y := by
  induction ops generalizing g with
  | nil => simp [countKey]
  | cons op rest ih =>
    rw [List.foldl_cons, ih]
    by_cases h : x = op.1 ∧ y = op.2.1
    · obtain ⟨hx, hy⟩ := h
      rw [hx, hy, nx_getWeight_add_edge_self]
      have : countKey (op :: rest) op.1 op.2.1 = countKey rest op.1 op.2.1 + 1 := by
        simp [countKey, List.filter_cons]
      rw [hx, hy] at *
      omega
    · rw [nx_getWeight_add_edge_other _ _ _ _ _ _ h]
      have hb : (op.1 == x && op.2.1 == y) = false := by
        rcases not_and_or.mp h with h2 | h2 <;>
          simp [beq_eq_false_iff_ne.mpr (fun he => h2 he.symm)]
      have : countKey (op :: rest) x y = countKey rest x y := by
        simp [countKey, List.filter_cons, hb]
      omega

theorem nx_has_edge_foldl_ops (ops : List (String × String × String)) (g : NXGraph)
    (x y : String) :
    (ops.foldl (fun g op => g.add_edge op.1 op.2.1 op.2.2) g).has_edge x y =
      (g.has_edge x y || ops.any (fun op => x == op.1 && y == op.2.1)) := by
  induction ops generalizing g with
  | nil => simp
  | cons op rest ih =>
    rw [List.foldl_cons, ih, nx_has_edge_add_edge]
    simp [Bool.or_assoc]

theorem nx_edges_foldl_ops_of_present (ops : List (String × String × String))
    (g : NXGraph) (h : ∀ op ∈ ops, g.has_edge op.1 op.2.1 = true) :
    (ops.foldl (fun g op => g.add_edge op.1 op.2.1 op.2.2) g).number_of_edges =
      g.number_of_edges := by
  induction ops generalizing g with
  | nil => rfl
  | cons op rest ih =>
    rw [List.foldl_cons]
    have hop : g.has_edge op.1 op.2.1 = true := h op (List.mem_cons_self _ _)
    have h2 : ∀ op2 ∈ rest, (g.add_edge op.1 op.2.1 op.2.2).has_edge op2.1 op2.2.1 = true := by
      intro op2 hmem
      rw [nx_has_edge_add_edge, h op2 (List.mem_cons_of_mem _ hmem)]
      rfl
    rw [ih _ h2, nx_edges_add_edge, hop]
    simp

theorem any_key_of_mem {ops : List (String × String × String)}
    {op : String × String × String} (h : op ∈ ops) :
    ops.any (fun op2 => op.1 == op2.1 && op.2.1 == op2.2.1) = true := by
  rw [List.any_eq_true]
  exact ⟨op, h, by simp⟩

theorem getWeight_zero_of_not_has {g : PureGraph} {src dst : String}
    (h : g.has_edge src dst = false) : g.getWeight src dst = 0 := by
  unfold PureGraph.has_edge at h
  unfold PureGraph.getWeight
  cases hf : outFind g.out src dst with
  | some a => rw [hf] at h; simp at h
  | none => rfl

theorem nx_getWeight_zero_of_not_has {g : NXGraph} {src dst : String}
    (h : g.has_edge src dst = false) : g.getWeight src dst = 0 := by
  unfold NXGraph.has_edge at h
  unfold NXGraph.getWeight
  cases hf : outFind g.succ src dst with
  | some a => rw [hf] at h; simp at h
  | none => rfl

/-- C2: in both graph backends, inserting an edge that already exists
increments its integer weight by exactly one, preserves the relation tag
given at creation, and adds no edge; inserting an absent edge creates it
with weight 1 and the given tag.  Consequently indexing the same session a
second time adds, to each edge `(x, y)`, exactly the number of insertions of
`(x, y)` the session performs (so one per repeated transition) and leaves
the edge count unchanged — no duplicate edges. -/
theorem add_edge_increments (gp : PureGraph) (gn : NXGraph) (g0 : PureGraph)
    (n0 : NXGraph) (s : Session) (src dst rel x y : String) :
    (gp.has_edge src dst = true →
      (gp.add_edge src dst rel).getWeight src dst = gp.getWeight src dst + 1 ∧
      (gp.add_edge src dst rel).getRel src dst = gp.getRel src dst ∧
      (gp.add_edge src dst rel).number_of_edges = gp.number_of_edges) ∧
    (gp.has_edge src dst = false →
      (gp.add_edge src dst rel).getWeight src dst = 1 ∧
      (gp.add_edge src dst rel).getRel src dst = some rel ∧
      (gp.add_edge src dst rel).number_of_edges = gp.number_of_edges + 1) ∧
    ((gp.add_edge src dst rel).has_edge x y =
      (gp.has_edge x y || (x == src && y == dst))) ∧
    (gn.has_edge src dst = true →
      (gn.add_edge src dst rel).getWeight src dst = gn.getWeight src dst + 1 ∧
      (gn.add_edge src dst rel).getRel src dst = gn.getRel src dst ∧
      (gn.add_edge src dst rel).number_of_edges = gn.number_of_edges) ∧
    (gn.has_edge src dst = false →
      (gn.add_edge src dst rel).getWeight src dst = 1 ∧
      (gn.add_edge src dst rel).getRel src dst = some rel ∧
      (gn.add_edge src dst rel).number_of_edges = gn.number_of_edges + 1) ∧
    ((gn.add_edge src dst rel).has_edge x y =
      (gn.has_edge x y || (x == src && y == dst))) ∧
    ((indexSessionPure (indexSessionPure g0 s) s).getWeight x y =
      (indexSessionPure g0 s).getWeight x y + countKey (sessionEdgeOps s) x y) ∧
    ((indexSessionPure (indexSessionPure g0 s) s).number_of_edges =
      (indexSessionPure g0 s).number_of_edges) ∧
    ((indexSessionNX (indexSessionNX n0 s) s).getWeight x y =
      (indexSessionNX n0 s).getWeight x y + countKey (sessionEdgeOps s) x y) ∧
    ((indexSessionNX (indexSessionNX n0 s) s).number_of_edges =
      (indexSessionNX n0 s).number_of_edges) := by
  refine ⟨?_, ?_, has_edge_add_edge gp src dst rel x y, ?_, ?_,
    nx_has_edge_add_edge gn src dst rel x y, ?_, ?_, ?_, ?_⟩
  · intro h
    exact ⟨getWeight_add_edge_self gp src dst rel,
      getRel_add_edge_of_has gp src dst rel h, by rw [edges_add_edge, h]; simp⟩
  · intro h
    refine ⟨?_, getRel_add_edge_create gp src dst rel h, by rw [edges_add_edge, h]; simp⟩
    rw [getWeight_add_edge_self, getWeight_zero_of_not_has h]
  · intro h
    exact ⟨nx_getWeight_add_edge_self gn src dst rel,
      nx_getRel_add_edge_of_has gn src dst rel h, by rw [nx_edges_add_edge, h]; simp⟩
  · intro h
    refine ⟨?_, nx_getRel_add_edge_create gn src dst rel h, by rw [nx_edges_add_edge, h]; simp⟩
    rw [nx_getWeight_add_edge_self, nx_getWeight_zero_of_not_has h]
  · exact getWeight_foldl_ops (sessionEdgeOps s) (indexSessionPure g0 s) x y
  · apply edges_foldl_ops_of_present
    intro op hmem
    show (List.foldl (fun g op => g.add_edge op.1 op.2.1 op.2.2) g0 (sessionEdgeOps s)).has_edge
      op.1 op.2.1 = true
    rw [has_edge_foldl_ops, any_key_of_mem hmem]
    simp
  · exact nx_getWeight_foldl_ops (sessionEdgeOps s) (indexSessionNX n0 s) x y
  · apply nx_edges_foldl_ops_of_present
    intro op hmem
    show (List.foldl (fun g op => g.add_edge op.1 op.2.1 op.2.2) n0 (sessionEdgeOps s)).has_edge
      op.1 op.2.1 = true
    rw [nx_has_edge_foldl_ops, any_key_of_mem hmem]
    simp

theorem add_edge_increments_witness :
    (PureGraph.empty.add_edge "a" "b" "x").has_edge "a" "b" = true ∧
    ((PureGraph.empty.add_edge "a" "b" "x").add_edge "a" "b" "y").getWeight "a" "b" =
      (PureGraph.empty.add_edge "a" "b" "x").getWeight "a" "b" + 1 ∧
    ((PureGraph.empty.add_edge "a" "b" "x").add_edge "a" "b" "y").getRel "a" "b" =
      (PureGraph.empty.add_edge "a" "b" "x").getRel "a" "b" ∧
    (NXGraph.empty.add_edge "a" "b" "x").has_edge "a" "b" = true ∧
    ((NXGraph.empty.add_edge "a" "b" "x").add_edge "a" "b" "y").getWeight "a" "b" =
      (NXGraph.empty.add_edge "a" "b" "x").getWeight "a" "b" + 1 ∧
    (PureGraph.empty.has_edge "c" "d" = false ∧
      (PureGraph.empty.add_edge "c" "d" "r").getWeight "c" "d" = 1 ∧
      (PureGraph.empty.add_edge "c" "d" "r").getRel "c" "d" = some "r") := by
  have h := add_edge_increments (PureGraph.empty.add_edge "a" "b" "x")
    (NXGraph.empty.add_edge "a" "b" "x") PureGraph.empty NXGraph.empty
    (mkSession "1" ["a"]) "a" "b" "y" "a" "b"
  have h2 := add_edge_increments PureGraph.empty NXGraph.empty PureGraph.empty
    NXGraph.empty (mkSession "1" ["a"]) "c" "d" "r" "c" "d"
  exact ⟨by decide, (h.1 (by decide)).1, (h.1 (by decide)).2.1, by decide,
    ((h.2.2.2.1) (by decide)).1, by decide, (h2.2.1 (by decide)).1,
    (h2.2.1 (by decide)).2.1⟩

/-! ## Single-session edge lemmas (claim C3) -/

theorem toolNode_ne_fileNode (a b : String) : toolNode a ≠ fileNode b := by
  intro h
  have h2 : (toolNode a).data.head? = (fileNode b).data.head? := by rw [h]
  have h3 : (toolNode a).data.head? = some 't' := rfl
  have h4 : (fileNode b).data.head? = some 'f' := rfl
  rw [h3, h4] at h2
  exact absurd h2 (by decide)

theorem toolNode_ne_errorNode (a b : String) : toolNode a ≠ errorNode b := by
  intro h
  have h2 : (toolNode a).data.head? = (errorNode b).data.head? := by rw [h]
  have h3 : (toolNode a).data.head? = some 't' := rfl
  have h4 : (errorNode b).data.head? = some 'e' := rfl
  rw [h3, h4] at h2
  exact absurd h2 (by decide)

theorem messageEdgeOps_src {m : Message} {op : String × String × String}
    (hop : op ∈ messageEdgeOps m) :
    (∃ f, op.1 = fileNode f) ∨ (∃ e, op.1 = errorNode e) := by
  unfold messageEdgeOps at hop
  rcases List.mem_append.mp hop with hop | hop
  · rcases List.mem_append.mp hop with hop | hop
    · obtain ⟨f, _, he⟩ := List.mem_map.mp hop
      exact Or.inl ⟨f, by rw [← he]⟩
    · by_cases hc : (m.role == some "user" || m.role == some "tool_result") = true
      · rw [if_pos hc] at hop
        obtain ⟨e, _, he⟩ := List.mem_map.mp hop
        exact Or.inr ⟨e, by rw [← he]⟩
      · rw [if_neg hc] at hop
        simp at hop
  · obtain ⟨tu, _, htu⟩ := List.mem_flatMap.mp hop
    by_cases hn : pyStrip tu.tool = ""
    · rw [if_pos hn] at htu
      simp at htu
    · rw [if_neg hn] at htu
      obtain ⟨f, _, he⟩ := List.mem_map.mp htu
      exact Or.inl ⟨f, by rw [← he]⟩

theorem sessionToolNodes_shape {s : Session} {x : String}
    (hx : x ∈ sessionToolNodes s) : ∃ n, x = toolNode n := by
  unfold sessionToolNodes at hx
  obtain ⟨m, _, hm⟩ := List.mem_flatMap.mp hx
  obtain ⟨tu, _, htu⟩ := List.mem_filterMap.mp hm
  by_cases hn : pyStrip tu.tool = ""
  · rw [if_pos hn] at htu
    simp at htu
  · rw [if_neg hn] at htu
    exact ⟨pyStrip tu.tool, (Option.some.inj htu).symm⟩

/-- The edge keys `(src, dst)` of the adjacency structure, with multiplicity
per source bucket (but not per weight). -/
def edgeKeys (g : PureGraph) : List (String × String) :=
  g.out.flatMap (fun p => p.2.map (fun q => (p.1, q.1)))

theorem length_edgeKeys (g : PureGraph) :
    (edgeKeys g).length = g.number_of_edges := by
  unfold edgeKeys PureGraph.number_of_edges
  rw [List.length_flatMap]
  congr 1
  simp only [List.map_inj_left, Function.comp_apply, List.length_map, implies_true]

theorem alistFind_mem {α : Type} {m : List (String × α)} {k : String} {v : α}
    (h : alistFind m k = some v) : (k, v) ∈ m := by
  unfold alistFind at h
  cases hf : m.find? (fun p => p.1 == k) with
  | none => rw [hf] at h; simp at h
  | some p =>
    rw [hf] at h
    have hk := List.find?_some hf
    have hm := List.mem_of_find?_eq_some hf
    rw [beq_iff_eq] at hk
    have hv : p.2 = v := by simpa using h
    have : p = (k, v) := by
      cases p
      simp_all
    rw [← this]
    exact hm

theorem mem_edgeKeys_of_has {g : PureGraph} {x y : String}
    (h : g.has_edge x y = true) : (x, y) ∈ edgeKeys g := by
  unfold PureGraph.has_edge at h
  cases hf : outFind g.out x y with
  | none => rw [hf] at h; simp at h
  | some a =>
    unfold outFind at hf
    cases hsrc : alistFind g.out x with
    | none => rw [hsrc] at hf; simp [alistFind] at hf
    | some adj =>
      rw [hsrc] at hf
      have hadj : alistFind adj y = some a := hf
      unfold edgeKeys
      rw [List.mem_flatMap]
      exact ⟨(x, adj), alistFind_mem hsrc,
        List.mem_map.mpr ⟨(y, a), alistFind_mem hadj, rfl⟩⟩

theorem nodup_subset_length {α : Type} [DecidableEq α] {l1 l2 : List α}
    (hn : l1.Nodup) (hs : ∀ x ∈ l1, x ∈ l2) : l1.length ≤ l2.length := by
  have h1 : l1.toFinset.card = l1.length := List.toFinset_card_of_nodup hn
  have h2 : l1.toFinset ⊆ l2.toFinset := by
    intro x hx
    rw [List.mem_toFinset] at hx ⊢
    exact hs x hx
  calc l1.length = l1.toFinset.card := h1.symm
    _ ≤ l2.toFinset.card := Finset.card_le_card h2
    _ ≤ l2.length := List.toFinset_card_le l2

/-- C3 (amended): building an index from the singleton list of a session whose
trajectory type is not `"correction_loop"` produces, for every consecutive
pair of the flattened tool sequence, a directed edge tagged
`"led_to_success"`, and the graph's edge count is at least the number of
distinct consecutive pairs.  (The original bound `n - 1` counts repeated
pairs, which accumulate weight on one edge instead of adding edges.) -/
theorem single_success_session_edges (st0 : GraphIndex) (s : Session) (fb : String)
    (h : s.trajectory_type ≠ some "correction_loop") :
    (∀ pr ∈ transitionPairs s,
      (st0.build [(s, fb)]).graph.has_edge pr.1 pr.2 = true ∧
      (st0.build [(s, fb)]).graph.getRel pr.1 pr.2 = some "led_to_success") ∧
    (transitionPairs s).dedup.length ≤ (st0.build [(s, fb)]).stats.edges := by
  have hsucc : session_is_successful s = true := by
    unfold session_is_successful
    rw [beq_eq_false_iff_ne.mpr h]
    rfl
  have hgraph : (st0.build [(s, fb)]).graph = indexSessionPure PureGraph.empty s := rfl
  have hedge : ∀ pr ∈ transitionPairs s,
      (st0.build [(s, fb)]).graph.has_edge pr.1 pr.2 = true := by
    intro pr hpr
    rw [hgraph, indexSessionPure_eq_foldl, has_edge_foldl_ops]
    have hop : ((pr.1, pr.2, "led_to_success") : String × String × String) ∈
        sessionEdgeOps s := by
      unfold sessionEdgeOps
      refine List.mem_append_right _ (List.mem_map.mpr ⟨pr, hpr, ?_⟩)
      rw [hsucc]
      rfl
    have hany : (sessionEdgeOps s).any (fun op => pr.1 == op.1 && pr.2 == op.2.1) = true := by
      rw [List.any_eq_true]
      exact ⟨_, hop, by simp⟩
    rw [hany]
    simp
  refine ⟨fun pr hpr => ⟨hedge pr hpr, ?_⟩, ?_⟩
  · rw [hgraph, indexSessionPure_eq_foldl]
    apply getRel_foldl_ops_create
    · rfl
    · intro op hop hx hy
      rcases List.mem_append.mp hop with hop | hop
      · obtain ⟨m, _, hm⟩ := List.mem_flatMap.mp hop
        have hsrc := messageEdgeOps_src hm
        have hx2 : pr.1 ∈ sessionToolNodes s := (List.of_mem_zip hpr).1
        obtain ⟨n, hn⟩ := sessionToolNodes_shape hx2
        rcases hsrc with ⟨f, hf⟩ | ⟨e, he⟩
        · exact absurd (by rw [← hx, hf] at hn; exact hn.symm) (toolNode_ne_fileNode n f)
        · exact absurd (by rw [← hx, he] at hn; exact hn.symm) (toolNode_ne_errorNode n e)
      · obtain ⟨q, _, hq⟩ := List.mem_map.mp hop
        rw [← hq]
        rw [hsucc]
        rfl
    · rw [List.any_eq_true]
      refine ⟨(pr.1, pr.2, "led_to_success"), ?_, by simp⟩
      unfold sessionEdgeOps
      refine List.mem_append_right _ (List.mem_map.mpr ⟨pr, hpr, ?_⟩)
      rw [hsucc]
      rfl
  · have hsub : ∀ pr ∈ (transitionPairs s).dedup,
        pr ∈ edgeKeys (st0.build [(s, fb)]).graph := by
      intro pr hpr
      have hpr2 : pr ∈ transitionPairs s := List.mem_dedup.mp hpr
      have h3 := mem_edgeKeys_of_has (hedge pr hpr2)
      simpa using h3
    have hlen := nodup_subset_length (List.nodup_dedup _) hsub
    rw [length_edgeKeys] at hlen
    exact hlen

/-- C3 counterexample: for the successful session with tool sequence
`[a, b, a, b]` (n = 4), the claimed bound `edge_count ≥ n - 1 = 3` fails —
the two repeated transitions collapse onto two weighted edges. -/
theorem single_session_edge_count_gap :
    (sessionToolNodes (mkSession "s1" ["a", "b", "a", "b"])).length = 4 ∧
    session_is_successful (mkSession "s1" ["a", "b", "a", "b"]) = true ∧
    (GraphIndex.empty.build [(mkSession "s1" ["a", "b", "a", "b"], "f")]).stats.edges = 2 ∧
    ¬(4 - 1 ≤
      (GraphIndex.empty.build [(mkSession "s1" ["a", "b", "a", "b"], "f")]).stats.edges) := by
  exact ⟨by decide, by decide, by decide, by decide⟩

theorem single_success_session_edges_witness :
    (mkSession "s1" ["Read", "Bash"]).trajectory_type ≠ some "correction_loop" ∧
    ((∀ pr ∈ transitionPairs (mkSession "s1" ["Read", "Bash"]),
      (GraphIndex.empty.build [(mkSession "s1" ["Read", "Bash"], "f")]).graph.has_edge
        pr.1 pr.2 = true ∧
      (GraphIndex.empty.build [(mkSession "s1" ["Read", "Bash"], "f")]).graph.getRel
        pr.1 pr.2 = some "led_to_success") ∧
    (transitionPairs (mkSession "s1" ["Read", "Bash"])).dedup.length ≤
      (GraphIndex.empty.build [(mkSession "s1" ["Read", "Bash"], "f")]).stats.edges) :=
  ⟨by decide,
    single_success_session_edges GraphIndex.empty (mkSession "s1" ["Read", "Bash"]) "f"
      (by decide)⟩

/-! ## build replaces state (claim C5) -/

/-- C5: `build` discards all prior state — the result is independent of the
prior index and equals a rebuild from a fresh index — and `build([])` yields
statistics of an empty index: zero sessions, zero nodes, zero edges. -/
theorem build_discards_prior_state (st st2 : GraphIndex)
    (ss : List (Session × String)) :
    st.build ss = st2.build ss ∧
    st.build ss = GraphIndex.empty.build ss ∧
    (st.build []).stats = ⟨0, 0, 0, false⟩ ∧
    (st.build []).stats.sessions = 0 :=
  ⟨rfl, rfl, rfl, rfl⟩

/-! ## meta degrades statistics failures (claim C8) -/

/-- C8: `meta()` never propagates a failure of the index's statistics call —
when `stats()` raises or returns a non-dict, the snapshot still carries the
session count, project count, refresh count and last refresh duration, with
`index_stats` reported as the empty statistics object. -/
theorem meta_swallows_stats_failure (st : ServiceState) (ix : ServiceIndex)
    (hix : st.index = some ix)
    (hfail : ix.statsCall = StatsCall.raises ∨ ix.statsCall = StatsCall.notDict) :
    serviceMeta st =
      ⟨(st.sessions.getD []).length, st.project_count, st.refresh_count,
        st.last_refresh_ms, none⟩ := by
  unfold serviceMeta
  rw [hix]
  dsimp only
  rcases hfail with h | h <;> rw [h]

theorem meta_swallows_stats_failure_witness :
    (ServiceState.mk (some []) (some ⟨StatsCall.raises⟩) 3 2 7).index =
      some ⟨StatsCall.raises⟩ ∧
    serviceMeta (ServiceState.mk (some []) (some ⟨StatsCall.raises⟩) 3 2 7) =
      ⟨0, 3, 2, 7, none⟩ :=
  ⟨rfl, meta_swallows_stats_failure _ ⟨StatsCall.raises⟩ rfl (Or.inl rfl)⟩

/-! ## File-reference extraction characterization (claim C4) -/

/-- Worker for `specFileTokens` (fuel-based like the other scanners). -/
def maximalRunsFuel : Nat → List Char → List (List Char)
  | _, [] => []
  | 0, _ => []
  | fuel + 1, c :: t =>
    if isFileTokChar c then
      ((c :: t).takeWhile isFileTokChar) ::
        maximalRunsFuel fuel ((c :: t).drop ((c :: t).takeWhile isFileTokChar).length)
    else maximalRunsFuel fuel t

/-- The claim's reading of file-reference extraction: maximal runs of word,
dot, slash and hyphen characters that contain a slash or a dot, capped at
five, in order.  Stated only to exhibit its divergence from the code's
regex-based extraction. -/
def specFileTokens (text : String) : List String :=
  (((maximalRunsFuel text.data.length text.data).filter
      (fun r => r.contains '/' || r.contains '.')).take 5).map (fun r => ⟨r⟩)

/-- C4 counterexample: `"src/main"` is a maximal path-like token containing a
slash, so the claim requires it to be extracted, but the code's pattern
demands a dot followed by a word character and extracts nothing. -/
theorem extract_file_refs_misses_slash_token :
    specFileTokens "src/main" = ["src/main"] ∧
    extract_file_refs "src/main" = [] := by
  exact ⟨by decide, by decide⟩

theorem matchFileRef_dot {cs : List Char} {p : List Char × List Char}
    (h : matchFileRef cs = some p) : '.' ∈ p.1 := by
  unfold matchFileRef at h
  cases hk : findDotSplit (cs.takeWhile isFileTokChar) with
  | none => simp [hk] at h
  | some k =>
    have hdot := List.find?_some hk
    simp only [Bool.and_eq_true, decide_eq_true_eq, beq_iff_eq] at hdot
    have hget : (cs.takeWhile isFileTokChar).get? k = some '.' := hdot.1.2
    simp only [hk] at h
    injection h with h2
    have hp1 : p.1 = (cs.takeWhile isFileTokChar).take
        (k + 1 + min 6 (((cs.takeWhile isFileTokChar).drop (k + 1)).takeWhile
          isWordChar).length) := by
      have := congrArg Prod.fst h2
      exact this.symm
    rw [hp1]
    have hklt : k < k + 1 + min 6 (((cs.takeWhile isFileTokChar).drop (k + 1)).takeWhile
        isWordChar).length := by omega
    have : ((cs.takeWhile isFileTokChar).take
        (k + 1 + min 6 (((cs.takeWhile isFileTokChar).drop (k + 1)).takeWhile
          isWordChar).length)).get? k = some '.' := by
      rw [List.get?_eq_getElem?, List.getElem?_take_of_lt hklt, ← List.get?_eq_getElem?]
      exact hget
    exact List.get?_mem this

theorem pyFindAllFuel_dot (fuel : Nat) (cs : List Char) :
    ∀ m ∈ pyFindAllFuel fuel cs, '.' ∈ m := by
  induction fuel generalizing cs with
  | zero =>
    intro m hm
    cases cs with
    | nil => simp [pyFindAllFuel] at hm
    | cons c t => simp [pyFindAllFuel] at hm
  | succ fuel ih =>
    intro m hm
    cases cs with
    | nil => simp [pyFindAllFuel] at hm
    | cons c t =>
      unfold pyFindAllFuel at hm
      cases hmf : matchFileRef (c :: t) with
      | some p =>
        rw [hmf] at hm
        rcases List.mem_cons.mp hm with hm | hm
        · rw [hm]
          exact matchFileRef_dot hmf
        · exact ih p.2 m hm
      | none =>
        rw [hmf] at hm
        exact ih t m hm

/-- C4 (amended): file-reference extraction returns exactly the first five
regex matches of `[\w./\-]+\.\w{1,6}` in scan order; every match contains a
dot (so the slash-or-dot filter never removes a match), and at most five
tokens are returned.  Path-like tokens without a dot (e.g. `src/main`) are
not extracted. -/
theorem extract_file_refs_spec (text : String) :
    extract_file_refs text = ((pyFindAll text.data).take 5).map (fun m => ⟨m⟩) ∧
    (extract_file_refs text).length ≤ 5 ∧
    (∀ t ∈ extract_file_refs text, '.' ∈ t.data) := by
  have hdots : ∀ m ∈ pyFindAll text.data, '.' ∈ m :=
    pyFindAllFuel_dot text.data.length text.data
  have hfilter : (pyFindAll text.data).filter
      (fun m => m.contains '/' || m.contains '.') = pyFindAll text.data := by
    rw [List.filter_eq_self]
    intro m hm
    have : m.contains '.' = true := List.elem_eq_true_of_mem (hdots m hm)
    rw [this]
    simp
  have heq : extract_file_refs text = ((pyFindAll text.data).take 5).map (fun m => ⟨m⟩) := by
    unfold extract_file_refs
    rw [hfilter]
  refine ⟨heq, ?_, ?_⟩
  · rw [heq, List.length_map]
    exact le_trans (List.length_take_le _ _) (le_refl _)
  · intro t ht
    rw [heq] at ht
    obtain ⟨m, hm, hme⟩ := List.mem_map.mp ht
    have hm2 : m ∈ pyFindAll text.data := List.mem_of_mem_take hm
    rw [← hme]
    exact hdots m hm2

/-! ## search_past_solutions (claim C7) -/

/-- Summaries with 1-based ranks starting after `start` matches. -/
def rankedSummaries : Nat → List Session → List SessionSummary
  | _, [] => []
  | start, s :: rest =>
    session_summary s (some (start + 1)) :: rankedSummaries (start + 1) rest

theorem rankedSummaries_length (start : Nat) (l : List Session) :
    (rankedSummaries start l).length = l.length := by
  induction l generalizing start with
  | nil => rfl
  | cons s rest ih => simp [rankedSummaries, ih]

theorem pyLower_eq_empty_iff (t : String) : pyLower t = "" ↔ t = "" := by
  constructor
  · intro h
    have hd := congrArg String.data h
    have hd2 : t.data.map pyToLower = [] := hd
    rw [List.map_eq_nil_iff] at hd2
    cases t
    simp_all
  · intro h
    rw [h]
    rfl

theorem needle_empty_iff (q : String) : pyStrip (pyLower q) = "" ↔ pyStrip q = "" := by
  rw [pyStrip_pyLower, pyLower_eq_empty_iff]

theorem searchLoop_eq (needle : String) (mr : Int) (l : List Session) :
    ∀ acc : List SessionSummary, (acc.length : Int) < mr →
      searchLoop needle mr l acc =
        acc ++ rankedSummaries acc.length
          ((l.filter (sessionMatches needle)).take (mr - acc.length).toNat) := by
  induction l with
  | nil =>
    intro acc hacc
    simp [searchLoop, rankedSummaries]
  | cons s rest ih =>
    intro acc hacc
    unfold searchLoop
    by_cases hm : sessionMatches needle s
    · rw [if_neg (by simp [hm])]
      rw [List.filter_cons_of_pos (by simp [hm])]
      by_cases hstop : mr ≤ (((acc ++ [session_summary s (some (acc.length + 1))]).length : Nat) : Int)
      · rw [if_pos hstop]
        have hmr : mr = (acc.length : Int) + 1 := by
          simp only [List.length_append, List.length_cons, List.length_nil] at hstop
          push_cast at hstop
          omega
        have h1 : (mr - (acc.length : Int)).toNat = 1 := by omega
        rw [h1, List.take_succ_cons, List.take_zero]
        rfl
      · rw [if_neg hstop]
        have hacc2 : (((acc ++ [session_summary s (some (acc.length + 1))]).length : Nat) : Int) < mr := by
          omega
        rw [ih _ hacc2]
        have hlen : (acc ++ [session_summary s (some (acc.length + 1))]).length =
            acc.length + 1 := by simp
        rw [hlen]
        have harg : (mr - ((acc.length + 1 : Nat) : Int)).toNat =
            (mr - (acc.length : Int)).toNat - 1 := by push_cast; omega
        have hpos : (mr - (acc.length : Int)).toNat =
            ((mr - (acc.length : Int)).toNat - 1) + 1 := by omega
        rw [harg, hpos, List.take_succ_cons]
        rw [show rankedSummaries acc.length (s :: ((rest.filter (sessionMatches needle)).take
            ((mr - (acc.length : Int)).toNat - 1))) =
          session_summary s (some (acc.length + 1)) :: rankedSummaries (acc.length + 1)
            ((rest.filter (sessionMatches needle)).take
              ((mr - (acc.length : Int)).toNat - 1)) from rfl]
        rw [List.append_assoc]
        rfl
    · rw [if_pos (by simp [hm])]
      rw [List.filter_cons_of_neg (by simp [hm])]
      exact ih acc hacc

/-- C7 (amended): `search_past_solutions` fails with `invalid_query` exactly
when the query trims to empty, with `invalid_max_results` exactly when the
query does not trim to empty and `max_results ≤ 0`, and otherwise returns
the first `max_results` cached sessions, scanned in order, whose message
content or project label contains the lowercased *trimmed* query as a
substring, with 1-based ranks; the result length never exceeds
`max_results`.  (The original claim said "lowercased query"; the code
matches on `query.lower().strip()`.) -/
theorem search_past_solutions_spec (sessions : List Session) (query : String)
    (mr : Int) :
    (search_past_solutions sessions query mr =
        Envelope.err "invalid_query" "query must be non-empty text." ↔
      pyStrip query = "") ∧
    (search_past_solutions sessions query mr =
        Envelope.err "invalid_max_results" "max_results must be greater than 0." ↔
      (pyStrip query ≠ "" ∧ mr ≤ 0)) ∧
    (pyStrip query ≠ "" → 0 < mr →
      search_past_solutions sessions query mr =
        Envelope.ok (rankedSummaries 0
          ((sessions.filter (sessionMatches (pyStrip (pyLower query)))).take mr.toNat)) ∧
      ((rankedSummaries 0
          ((sessions.filter (sessionMatches (pyStrip (pyLower query)))).take
            mr.toNat)).length : Int) ≤ mr) := by
  unfold search_past_solutions
  by_cases hq : pyStrip (pyLower query) = ""
  · rw [if_pos hq]
    have hq2 : pyStrip query = "" := (needle_empty_iff query).mp hq
    refine ⟨by simp [hq2], ?_, ?_⟩
    · constructor
      · intro h
        exact absurd (Envelope.err.inj h).1 (by decide)
      · intro h
        exact absurd hq2 h.1
    · intro h
      exact absurd hq2 h
  · rw [if_neg hq]
    have hq2 : pyStrip query ≠ "" := fun h => hq ((needle_empty_iff query).mpr h)
    by_cases hmr : mr ≤ 0
    · rw [if_pos hmr]
      refine ⟨?_, ⟨fun _ => ⟨hq2, hmr⟩, fun _ => rfl⟩, ?_⟩
      · constructor
        · intro h
          exact absurd (Envelope.err.inj h).1 (by decide)
        · intro h
          exact absurd h hq2
      · intro _ h0
        omega
    · rw [if_neg hmr]
      refine ⟨iff_of_false (by simp) hq2, ?_, ?_⟩
      · constructor
        · intro h
          exact absurd h (by simp)
        · intro h
          exact absurd h.2 hmr
      · intro _ _
        have h0 : ((([] : List SessionSummary).length : Nat) : Int) < mr := by
          simp
          omega
        have hloop := searchLoop_eq (pyStrip (pyLower query)) mr sessions [] h0
        simp only [List.length_nil, Nat.cast_zero, Int.sub_zero, List.nil_append] at hloop
        constructor
        · rw [hloop]
        · rw [rankedSummaries_length]
          have := List.length_take_le mr.toNat
            (sessions.filter (sessionMatches (pyStrip (pyLower query))))
          omega

/-- The claim's matcher: message content or project label contains the
lowercased (untrimmed) query as a substring.  Stated only to exhibit its
divergence from the code, which matches on the lowercased trimmed query. -/
def sessionMatchesClaim (query : String) (s : Session) : Bool :=
  ((s.messages.getD []).any (fun m => pyContains (pyLower m.content) (pyLower query)))
  || pyContains (pyLower (s.project.getD "")) (pyLower query)

/-- A cached session whose sole message content is `"foo"`. -/
def cSession : Session :=
  ⟨some "s", some "proj", some "sft_clean", none, none, some [⟨some "user", "foo", []⟩]⟩

/-- C7 counterexample: for the query `" foo "`, the code trims the needle and
returns the session with content `"foo"`, but the lowercased query
`" foo "` is not a substring of any of its text, so the claim predicts no
match. -/
theorem search_needle_is_trimmed :
    search_past_solutions [cSession] " foo " 5 =
      Envelope.ok [session_summary cSession (some 1)] ∧
    sessionMatchesClaim " foo " cSession = false := by
  exact ⟨by decide, by decide⟩

theorem search_past_solutions_spec_witness :
    (pyStrip "foo" ≠ "" ∧ (0 : Int) < 5) ∧
    search_past_solutions [cSession] "foo" 5 =
      Envelope.ok (rankedSummaries 0
        (([cSession].filter (sessionMatches (pyStrip (pyLower "foo")))).take
          (5 : Int).toNat)) :=
  ⟨⟨by decide, by decide⟩,
    ((search_past_solutions_spec [cSession] "foo" 5).2.2 (by decide) (by decide)).1⟩

/-- C6: for a positive `max_results`, `find_similar_sessions` reports
`invalid_context` exactly when no valid `prefix:value` token remains after
parsing, and otherwise runs the graph query on the valid tokens while
returning malformed tokens in `invalid_tokens` without aborting; in the
example `"tool:bash, file:x.py, badtoken"`, the two valid nodes are queried
and `badtoken` is reported invalid. -/
theorem find_similar_sessions_spec (idx : GraphIndex) (context : String)
    (mr : Int) (hmr : 0 < mr) :
    (find_similar_sessions idx context mr =
        SimilarResult.err "invalid_context" (some (parse_context_nodes context).2) ↔
      (parse_context_nodes context).1 = []) ∧
    ((parse_context_nodes context).1 ≠ [] →
      find_similar_sessions idx context mr =
        SimilarResult.ok
          (((idx.query (parse_context_nodes context).1 mr).enum).map
            (fun p => session_summary p.2 (some (p.1 + 1))))
          (parse_context_nodes context).1 (parse_context_nodes context).2) ∧
    parse_context_nodes "tool:bash, file:x.py, badtoken" =
      (["tool:bash", "file:x.py"], ["badtoken"]) := by
  unfold find_similar_sessions
  rw [if_neg (by omega)]
  dsimp only
  by_cases hp : (parse_context_nodes context).1 = []
  · rw [if_pos hp]
    exact ⟨⟨fun _ => hp, fun _ => rfl⟩, fun h => absurd hp h, by decide⟩
  · rw [if_neg hp]
    exact ⟨iff_of_false (by simp) hp, fun _ => rfl, by decide⟩

theorem find_similar_sessions_spec_witness :
    ((0 : Int) < 5 ∧
      (parse_context_nodes "tool:bash, file:x.py, badtoken").1 ≠ []) ∧
    find_similar_sessions
        (GraphIndex.empty.build [(mkSession "1" ["Bash"], "f1")])
        "tool:bash, file:x.py, badtoken" 5 =
      SimilarResult.ok
        ((((GraphIndex.empty.build [(mkSession "1" ["Bash"], "f1")]).query
            (parse_context_nodes "tool:bash, file:x.py, badtoken").1 5).enum).map
          (fun p => session_summary p.2 (some (p.1 + 1))))
        (parse_context_nodes "tool:bash, file:x.py, badtoken").1
        (parse_context_nodes "tool:bash, file:x.py, badtoken").2 :=
  ⟨⟨by decide, by decide⟩,
    (find_similar_sessions_spec (GraphIndex.empty.build [(mkSession "1" ["Bash"], "f1")])
      "tool:bash, file:x.py, badtoken" 5 (by decide)).2.1 (by decide)⟩

/-! ## Query scoring lemmas (claims C1, C10) -/

/-- Value of a key in a score map, with 0 for an absent key. -/
def valueOf (m : List (String × Nat)) (sid : String) : Nat :=
  (alistFind m sid).getD 0

/-- Total of the increments an op list applies to one session identifier. -/
def sumDeltas (ops : List (String × Nat)) (sid : String) : Nat :=
  ((ops.filter (fun p => p.1 == sid)).map (fun p => p.2)).sum

/-- The claim's scoring rule: per (normalized) context node, two points per
occurrence in that node's contributor list plus one point per occurrence in
each graph neighbor's contributor list, accumulated additively. -/
def specScore (st : GraphIndex) (ctx : List String) (sid : String) : Nat :=
  (ctx.map (fun node =>
    2 * List.count sid ((alistFind st.node_to_sessions (normalizeNode node)).getD []) +
      ((st.graph.neighbors (normalizeNode node)).map
        (fun nb => List.count sid ((alistFind st.node_to_sessions nb).getD []))).sum)).sum

theorem bumpScore_valueOf (m : List (String × Nat)) (x : String) (d : Nat)
    (sid : String) :
    valueOf (bumpScore m x d) sid = valueOf m sid + (if sid = x then d else 0) := by
  unfold bumpScore valueOf
  cases hf : alistFind m x with
  | some v =>
    by_cases hs : sid = x
    · subst hs
      rw [alistFind_set_self, hf]
      simp
    · rw [alistFind_set_ne _ _ _ _ hs, if_neg hs]
      simp
  | none =>
    by_cases hs : sid = x
    · subst hs
      rw [alistFind_append_of_none _ hf, alistFind_singleton_self, hf]
      simp
    · rw [if_neg hs]
      cases hm : alistFind m sid with
      | some v =>
        rw [alistFind_append_of_some _ hm]
        simp
      | none =>
        rw [alistFind_append_of_none _ hm, alistFind_singleton_ne _ _ _ hs]
        simp

theorem foldBumps_valueOf (ops : List (String × Nat)) (m : List (String × Nat))
    (sid : String) :
    valueOf (ops.foldl (fun m p => bumpScore m p.1 p.2) m) sid =
      valueOf m sid + sumDeltas ops sid := by
  induction ops generalizing m with
  | nil => simp [sumDeltas]
  | cons p rest ih =>
    rw [List.foldl_cons, ih, bumpScore_valueOf]
    by_cases hs : sid = p.1
    · have hb : (p.1 == sid) = true := beq_iff_eq.mpr hs.symm
      have : sumDeltas (p :: rest) sid = p.2 + sumDeltas rest sid := by
        simp [sumDeltas, List.filter_cons, hb]
      rw [this, if_pos hs]
      omega
    · have hb : (p.1 == sid) = false := beq_eq_false_iff_ne.mpr (fun h => hs h.symm)
      have : sumDeltas (p :: rest) sid = sumDeltas rest sid := by
        simp [sumDeltas, List.filter_cons, hb]
      rw [this, if_neg hs]
      omega

theorem alistFind_isSome_eq_contains {α : Type} (m : List (String × α)) (k : String) :
    (alistFind m k).isSome = (m.map (fun p => p.1)).contains k := by
  cases hf : alistFind m k with
  | some v =>
    have : (k, v) ∈ m := alistFind_mem hf
    have hk : k ∈ m.map (fun p => p.1) := List.mem_map.mpr ⟨(k, v), this, rfl⟩
    have hc : (m.map (fun p => p.1)).contains k = true := List.elem_eq_true_of_mem hk
    rw [hc]
    rfl
  | none =>
    rw [alistFind_eq_none_iff] at hf
    cases hc : (m.map (fun p => p.1)).contains k
    · rfl
    · exact absurd (List.mem_of_elem_eq_true hc) hf

/-- First-appearance-order deduplication, as performed by repeated
`defaultdict` insertions. -/
def firstOccurrences (l : List String) : List String :=
  l.foldl (fun acc x => if acc.contains x then acc else acc ++ [x]) []

theorem bumpScore_keys (m : List (String × Nat)) (x : String) (d : Nat) :
    (bumpScore m x d).map (fun p => p.1) =
      if (m.map (fun p => p.1)).contains x then m.map (fun p => p.1)
      else m.map (fun p => p.1) ++ [x] := by
  unfold bumpScore
  cases hf : alistFind m x with
  | some v =>
    have hc := alistFind_isSome_eq_contains m x
    rw [hf] at hc
    have hc2 : (m.map (fun p => p.1)).contains x = true := by
      rw [← hc]
      rfl
    rw [if_pos hc2]
    exact alistSet_keys_of_found hf _
  | none =>
    have hc := alistFind_isSome_eq_contains m x
    rw [hf] at hc
    rw [if_neg (by rw [← hc]; simp)]
    simp

theorem foldBumps_keys (ops : List (String × Nat)) (m : List (String × Nat)) :
    (ops.foldl (fun m p => bumpScore m p.1 p.2) m).map (fun p => p.1) =
      (ops.map (fun p => p.1)).foldl
        (fun acc x => if acc.contains x then acc else acc ++ [x])
        (m.map (fun p => p.1)) := by
  induction ops generalizing m with
  | nil => rfl
  | cons p rest ih =>
    rw [List.foldl_cons, List.map_cons, List.foldl_cons, ih, bumpScore_keys]

theorem dedupAcc_nodup (l : List String) :
    ∀ acc : List String, acc.Nodup →
      (l.foldl (fun acc x => if acc.contains x then acc else acc ++ [x]) acc).Nodup := by
  induction l with
  | nil => exact fun acc h => h
  | cons x t ih =>
    intro acc hacc
    rw [List.foldl_cons]
    by_cases hc : acc.contains x = true
    · rw [if_pos hc]
      exact ih acc hacc
    · rw [if_neg hc]
      refine ih _ ?_
      rw [List.nodup_append]
      refine ⟨hacc, List.nodup_singleton x, ?_⟩
      intro a ha hx
      rw [List.mem_singleton] at hx
      subst hx
      exact hc (List.elem_eq_true_of_mem ha)

theorem mem_dedupAcc {l : List String} {x : String} :
    ∀ {acc : List String},
      x ∈ l.foldl (fun acc x => if acc.contains x then acc else acc ++ [x]) acc →
      x ∈ acc ∨ x ∈ l := by
  induction l with
  | nil => exact fun h => Or.inl h
  | cons y t ih =>
    intro acc h
    rw [List.foldl_cons] at h
    by_cases hc : acc.contains y = true
    · rw [if_pos hc] at h
      rcases ih h with h | h
      · exact Or.inl h
      · exact Or.inr (List.mem_cons_of_mem _ h)
    · rw [if_neg hc] at h
      rcases ih h with h | h
      · rcases List.mem_append.mp h with h | h
        · exact Or.inl h
        · rw [List.mem_singleton] at h
          exact Or.inr (h ▸ List.mem_cons_self _ _)
      · exact Or.inr (List.mem_cons_of_mem _ h)

theorem alistFind_of_mem_nodup {m : List (String × Nat)}
    (hnd : (m.map (fun p => p.1)).Nodup) {p : String × Nat} (hp : p ∈ m) :
    alistFind m p.1 = some p.2 := by
  induction m with
  | nil => simp at hp
  | cons q rest ih =>
    rcases List.mem_cons.mp hp with hp | hp
    · subst hp
      unfold alistFind
      simp [List.find?]
    · have hq : q.1 ≠ p.1 := by
        rw [List.map_cons, List.nodup_cons] at hnd
        intro he
        exact hnd.1 (he ▸ List.mem_map.mpr ⟨p, hp, rfl⟩)
      have hb : (q.1 == p.1) = false := beq_eq_false_iff_ne.mpr hq
      unfold alistFind
      rw [List.find?_cons_of_neg _ (by simp [hb])]
      exact ih (by rw [List.map_cons, List.nodup_cons] at hnd; exact hnd.2) hp

theorem mem_insertDesc {p q : String × Nat} {l : List (String × Nat)} :
    q ∈ insertDesc p l ↔ q = p ∨ q ∈ l := by
  induction l with
  | nil => simp [insertDesc]
  | cons r t ih =>
    unfold insertDesc
    by_cases hlt : p.2 < r.2
    · rw [if_pos hlt]
      rw [List.mem_cons, ih, List.mem_cons]
      tauto
    · rw [if_neg hlt]
      simp [List.mem_cons]

theorem length_insertDesc (p : String × Nat) (l : List (String × Nat)) :
    (insertDesc p l).length = l.length + 1 := by
  induction l with
  | nil => rfl
  | cons r t ih =>
    unfold insertDesc
    by_cases hlt : p.2 < r.2
    · rw [if_pos hlt]
      simp [ih]
    · rw [if_neg hlt]
      simp

theorem length_sortByScoreDesc (l : List (String × Nat)) :
    (sortByScoreDesc l).length = l.length := by
  induction l with
  | nil => rfl
  | cons p t ih =>
    unfold sortByScoreDesc
    rw [length_insertDesc, ih]
    rfl

theorem mem_sortByScoreDesc {q : String × Nat} {l : List (String × Nat)} :
    q ∈ sortByScoreDesc l ↔ q ∈ l := by
  induction l with
  | nil => simp [sortByScoreDesc]
  | cons p t ih =>
    unfold sortByScoreDesc
    rw [mem_insertDesc, ih, List.mem_cons]

theorem pairwise_insertDesc {p : String × Nat} {l : List (String × Nat)}
    (hl : l.Pairwise (fun a b => b.2 ≤ a.2)) :
    (insertDesc p l).Pairwise (fun a b => b.2 ≤ a.2) := by
  induction l with
  | nil => simp [insertDesc]
  | cons r t ih =>
    unfold insertDesc
    rw [List.pairwise_cons] at hl
    by_cases hlt : p.2 < r.2
    · rw [if_pos hlt]
      rw [List.pairwise_cons]
      constructor
      · intro q hq
        rcases mem_insertDesc.mp hq with hq | hq
        · subst hq
          omega
        · exact hl.1 q hq
      · exact ih hl.2
    · rw [if_neg hlt]
      rw [List.pairwise_cons]
      constructor
      · intro q hq
        rcases List.mem_cons.mp hq with hq | hq
        · subst hq
          omega
        · have := hl.1 q hq
          omega
      · rw [List.pairwise_cons]
        exact hl
  
theorem pairwise_sortByScoreDesc (l : List (String × Nat)) :
    (sortByScoreDesc l).Pairwise (fun a b => b.2 ≤ a.2) := by
  induction l with
  | nil => simp [sortByScoreDesc]
  | cons p t ih =>
    unfold sortByScoreDesc
    exact pairwise_insertDesc ih

theorem filter_insertDesc (p : String × Nat) (l : List (String × Nat)) (v : Nat)
    (hl : l.Pairwise (fun a b => b.2 ≤ a.2)) :
    (insertDesc p l).filter (fun q => q.2 == v) =
      if p.2 = v then p :: l.filter (fun q => q.2 == v)
      else l.filter (fun q => q.2 == v) := by
  induction l with
  | nil =>
    by_cases hv : p.2 = v
    · rw [if_pos hv]
      simp [insertDesc, List.filter, beq_iff_eq.mpr hv]
    · rw [if_neg hv]
      simp [insertDesc, List.filter, beq_eq_false_iff_ne.mpr hv]
  | cons r t ih =>
    rw [List.pairwise_cons] at hl
    unfold insertDesc
    by_cases hlt : p.2 < r.2
    · rw [if_pos hlt]
      by_cases hv : p.2 = v
      · have hr : (r.2 == v) = false := beq_eq_false_iff_ne.mpr (by omega)
        rw [List.filter_cons_of_neg (by simp [hr]), ih hl.2]
        rw [if_pos hv, if_pos hv, List.filter_cons_of_neg (by simp [hr])]
      · simp only [List.filter_cons, ih hl.2, if_neg hv]
    · rw [if_neg hlt]
      by_cases hv : p.2 = v
      · rw [if_pos hv, List.filter_cons_of_pos (by simp [hv])]
      · rw [if_neg hv, List.filter_cons_of_neg (by simp [hv])]

theorem filter_sortByScoreDesc (l : List (String × Nat)) (v : Nat) :
    (sortByScoreDesc l).filter (fun q => q.2 == v) =
      l.filter (fun q => q.2 == v) := by
  induction l with
  | nil => rfl
  | cons p t ih =>
    unfold sortByScoreDesc
    rw [filter_insertDesc p _ v (pairwise_sortByScoreDesc t), ih]
    by_cases hv : p.2 = v
    · rw [if_pos hv, List.filter_cons_of_pos (by simp [hv])]
    · rw [if_neg hv, List.filter_cons_of_neg (by simp [hv])]

theorem sumDeltas_append (l1 l2 : List (String × Nat)) (sid : String) :
    sumDeltas (l1 ++ l2) sid = sumDeltas l1 sid + sumDeltas l2 sid := by
  unfold sumDeltas
  rw [List.filter_append, List.map_append, List.sum_append]

theorem sumDeltas_map_pair (l : List String) (d : Nat) (sid : String) :
    sumDeltas (l.map (fun x => (x, d))) sid = d * List.count sid l := by
  induction l with
  | nil => simp [sumDeltas]
  | cons x t ih =>
    rw [List.map_cons]
    by_cases hx : x = sid
    · have hb : (x == sid) = true := beq_iff_eq.mpr hx
      have : sumDeltas ((x, d) :: t.map (fun x => (x, d))) sid =
          d + sumDeltas (t.map (fun x => (x, d))) sid := by
        simp [sumDeltas, List.filter_cons, hb]
      rw [this, ih, List.count_cons, if_pos (beq_iff_eq.mpr hx)]
      ring
    · have hb : (x == sid) = false := beq_eq_false_iff_ne.mpr hx
      have : sumDeltas ((x, d) :: t.map (fun x => (x, d))) sid =
          sumDeltas (t.map (fun x => (x, d))) sid := by
        simp [sumDeltas, List.filter_cons, hb]
      rw [this, ih, List.count_cons, if_neg (by simp [hx])]
      ring

theorem sumDeltas_neighbor_blocks (st : GraphIndex) (nbs : List String)
    (sid : String) :
    sumDeltas (nbs.flatMap (fun nb =>
        ((alistFind st.node_to_sessions nb).getD []).map (fun s2 => (s2, 1)))) sid =
      (nbs.map (fun nb =>
        List.count sid ((alistFind st.node_to_sessions nb).getD []))).sum := by
  induction nbs with
  | nil => simp [sumDeltas]
  | cons nb t ih =>
    rw [List.flatMap_cons, sumDeltas_append, ih, sumDeltas_map_pair, List.map_cons,
      List.sum_cons]
    omega

theorem sumDeltas_bumpOps (st : GraphIndex) (ctx : List String) (sid : String) :
    sumDeltas (st.bumpOps ctx) sid = specScore st ctx sid := by
  induction ctx with
  | nil => simp [GraphIndex.bumpOps, sumDeltas, specScore]
  | cons node rest ih =>
    unfold GraphIndex.bumpOps at ih ⊢
    rw [List.flatMap_cons, sumDeltas_append, sumDeltas_append, ih]
    unfold specScore
    rw [List.map_cons, List.sum_cons]
    rw [sumDeltas_map_pair, sumDeltas_neighbor_blocks]

/-- C1 (amended): `query` returns the empty sequence whenever the context is
empty; for every *non-negative* `max_results` it returns at most
`max_results` records; every entry of the score map carries exactly the
claim's score (2 per direct contributor occurrence, 1 per neighbor
contributor occurrence, summed over context nodes); the score map's keys are
in first-appearance order; and the ranking is sorted by descending score
with ties kept in score-map order (stable sort).  (The original claim's
"at most max_results" fails for negative `max_results`, where Python slicing
counts from the end.) -/
theorem query_ranking_spec (st : GraphIndex) (ctx : List String) (k : Int)
    (hk : 0 ≤ k) :
    (ctx = [] → st.query ctx k = []) ∧
    ((st.query ctx k).length : Int) ≤ k ∧
    (∀ p ∈ st.candidate_scores ctx, p.2 = specScore st ctx p.1) ∧
    ((st.candidate_scores ctx).map (fun p => p.1) =
      firstOccurrences ((st.bumpOps ctx).map (fun p => p.1))) ∧
    (sortByScoreDesc (st.candidate_scores ctx)).Pairwise (fun a b => b.2 ≤ a.2) ∧
    (∀ v, (sortByScoreDesc (st.candidate_scores ctx)).filter (fun p => p.2 == v) =
      (st.candidate_scores ctx).filter (fun p => p.2 == v)) := by
  have hkeys : (st.candidate_scores ctx).map (fun p => p.1) =
      firstOccurrences ((st.bumpOps ctx).map (fun p => p.1)) := by
    unfold GraphIndex.candidate_scores firstOccurrences
    rw [foldBumps_keys]
    rfl
  have hnodup : ((st.candidate_scores ctx).map (fun p => p.1)).Nodup := by
    rw [hkeys]
    exact dedupAcc_nodup _ [] List.nodup_nil
  refine ⟨fun h => by rw [GraphIndex.query, if_pos h], ?_, ?_, hkeys,
    pairwise_sortByScoreDesc _, fun v => filter_sortByScoreDesc _ v⟩
  · unfold GraphIndex.query
    by_cases hc : ctx = []
    · rw [if_pos hc]
      simpa using hk
    · rw [if_neg hc]
      dsimp only
      have h1 : ((pySliceTake k (sortByScoreDesc (st.candidate_scores ctx))).filterMap
          (fun p =>
            match alistFind st.sessions p.1 with
            | some s => if s.truthy then some s else none
            | none => none)).length ≤
          (pySliceTake k (sortByScoreDesc (st.candidate_scores ctx))).length :=
        List.length_filterMap_le _ _
      have h2 : (pySliceTake k (sortByScoreDesc (st.candidate_scores ctx))).length ≤
          k.toNat := by
        unfold pySliceTake
        rw [if_neg (by omega)]
        exact List.length_take_le _ _
      have h3 : (k.toNat : Int) = k := Int.toNat_of_nonneg hk
      omega
  · intro p hp
    have hval : alistFind (st.candidate_scores ctx) p.1 = some p.2 :=
      alistFind_of_mem_nodup hnodup hp
    have hv : valueOf (st.candidate_scores ctx) p.1 = p.2 := by
      unfold valueOf
      rw [hval]
      rfl
    have hfold := foldBumps_valueOf (st.bumpOps ctx) [] p.1
    have hcand : valueOf (st.candidate_scores ctx) p.1 =
        valueOf [] p.1 + sumDeltas (st.bumpOps ctx) p.1 := hfold
    rw [hv] at hcand
    rw [hcand]
    have hz : valueOf [] p.1 = 0 := rfl
    rw [hz, sumDeltas_bumpOps]
    omega

/-- C1 counterexample: with two candidates and `max_results = -1`, Python's
slice `ranked[:-1]` keeps one record, violating "returns at most
`max_results` session records" as literally stated. -/
theorem query_negative_max_results :
    ((GraphIndex.empty.build [(mkSession "1" ["a"], "f1"), (mkSession "2" ["a"], "f2")]).query
        ["tool:a"] (-1)).length = 1 ∧
    ¬(((1 : Nat) : Int) ≤ -1) := by
  exact ⟨by decide, by decide⟩

theorem query_ranking_spec_witness :
    (0 : Int) ≤ 1 ∧
    (((GraphIndex.empty.build [(mkSession "1" ["a"], "f1"), (mkSession "2" ["a"], "f2")]).query
        ["tool:a"] 1).length : Int) ≤ 1 :=
  ⟨by decide,
    (query_ranking_spec
      (GraphIndex.empty.build [(mkSession "1" ["a"], "f1"), (mkSession "2" ["a"], "f2")])
      ["tool:a"] 1 (by decide)).2.1⟩

/-! ## Contributor-list invariant (claim C10) -/

/-- Does the session contribute any tool node to the inverted index? -/
def contributes (s : Session) : Bool :=
  !(sessionToolNodes s).isEmpty

/-- The identifier `add_session` stores a pair under:
`str(session.get("session_id", id(session)))`. -/
def sidOf (p : Session × String) : String :=
  p.1.session_id.getD p.2

/-- One call into the index's mutating API. -/
inductive GIOp where
  | bld (ss : List (Session × String))
  | add (s : Session) (fb : String)
deriving DecidableEq

def applyOp (st : GraphIndex) : GIOp → GraphIndex
  | GIOp.bld ss => st.build ss
  | GIOp.add s fb => st.add_session s fb

/-- The index state after a sequence of `build` / `add_session` calls on a
fresh instance. -/
def runOps (ops : List GIOp) : GraphIndex :=
  ops.foldl applyOp GraphIndex.empty

def opPairs : GIOp → List (Session × String)
  | GIOp.bld ss => ss
  | GIOp.add s fb => [(s, fb)]

def allPairs (ops : List GIOp) : List (Session × String) :=
  ops.flatMap opPairs

/-- No falsy (empty-dict) session is stored under the identifier of any
session that contributes tool nodes.  This is strictly stronger than
CPython's `id()` guarantee: a user-supplied `session_id` string may well
equal a later `str(id(...))`, and exactly that collision makes the skip
branch of `query` reachable (see `query_skip_branch_fires`). -/
def FreshFallbacks (U : List (Session × String)) : Prop :=
  ∀ p ∈ U, p.1.truthy = false → ∀ q ∈ U, contributes q.1 = true → sidOf q ≠ sidOf p

def contribList (st : GraphIndex) (node : String) : List String :=
  (alistFind st.node_to_sessions node).getD []

/-- Every contributor identifier maps to a stored truthy session record. -/
def ContribInv (st : GraphIndex) : Prop :=
  ∀ node sid, sid ∈ contribList st node →
    ∃ s, alistFind st.sessions sid = some s ∧ s.truthy = true

/-- Every contributor identifier is the stored identifier of some
contributing pair of the universe `U`. -/
def ContribBound (st : GraphIndex) (U : List (Session × String)) : Prop :=
  ∀ node sid, sid ∈ contribList st node →
    ∃ q, q ∈ U ∧ contributes q.1 = true ∧ sidOf q = sid

theorem mem_contrib_addContrib {m : List (String × List String)}
    {sid tnode node sid2 : String}
    (h : sid2 ∈ (alistFind (addContrib m sid tnode) node).getD []) :
    sid2 ∈ (alistFind m node).getD [] ∨ (sid2 = sid ∧ node = tnode) := by
  unfold addContrib at h
  by_cases hc : ((alistFind m tnode).getD []).contains sid = true
  · rw [if_pos hc] at h
    exact Or.inl h
  · rw [if_neg hc] at h
    by_cases hn : node = tnode
    · subst hn
      rw [alistFind_set_self] at h
      simp only [Option.getD_some] at h
      rcases List.mem_append.mp h with h | h
      · exact Or.inl h
      · rw [List.mem_singleton] at h
        exact Or.inr ⟨h, rfl⟩
    · rw [alistFind_set_ne _ _ _ _ hn] at h
      exact Or.inl h

theorem mem_contrib_fold {tnodes : List String} {sid node sid2 : String} :
    ∀ {m : List (String × List String)},
      sid2 ∈ (alistFind (tnodes.foldl (fun m t => addContrib m sid t) m) node).getD [] →
      sid2 ∈ (alistFind m node).getD [] ∨ (sid2 = sid ∧ node ∈ tnodes) := by
  induction tnodes with
  | nil => exact fun h => Or.inl h
  | cons t rest ih =>
    intro m h
    rw [List.foldl_cons] at h
    rcases ih h with h | h
    · rcases mem_contrib_addContrib h with h | h
      · exact Or.inl h
      · exact Or.inr ⟨h.1, h.2 ▸ List.mem_cons_self _ _⟩
    · exact Or.inr ⟨h.1, List.mem_cons_of_mem _ h.2⟩

theorem truthy_of_toolNodes {s : Session} (h : sessionToolNodes s ≠ []) :
    s.truthy = true := by
  cases hm : s.messages with
  | none =>
    exfalso
    apply h
    unfold sessionToolNodes
    rw [hm]
    rfl
  | some msgs => simp [Session.truthy, hm]

theorem session_id_none_of_not_truthy {s : Session} (h : s.truthy = false) :
    s.session_id = none := by
  unfold Session.truthy at h
  cases hs : s.session_id with
  | none => rfl
  | some v => rw [hs] at h; simp at h

theorem add_session_step {U : List (Session × String)} {st : GraphIndex}
    {s : Session} {fb : String}
    (hU : FreshFallbacks U) (hmem : (s, fb) ∈ U)
    (hInv : ContribInv st) (hBound : ContribBound st U) :
    ContribInv (st.add_session s fb) ∧ ContribBound (st.add_session s fb) U := by
  have hsid : sidOf (s, fb) = s.session_id.getD fb := rfl
  constructor
  · intro node sid2 h2
    have h3 : sid2 ∈ contribList st node ∨
        (sid2 = s.session_id.getD fb ∧ node ∈ sessionToolNodes s) :=
      mem_contrib_fold h2
    rcases h3 with h3 | ⟨h3, hnode⟩
    · obtain ⟨s0, hfind, htr⟩ := hInv node sid2 h3
      by_cases he : sid2 = s.session_id.getD fb
      · refine ⟨s, ?_, ?_⟩
        · show alistFind (alistSet st.sessions (s.session_id.getD fb) s) sid2 = some s
          rw [he]
          exact alistFind_set_self _ _ _
        · by_cases ht : s.truthy = true
          · exact ht
          · exfalso
            have ht2 : s.truthy = false := by
              cases hb : s.truthy
              · rfl
              · exact absurd hb ht
            obtain ⟨q, hqU, hqc, hqs⟩ := hBound node sid2 h3
            apply hU (s, fb) hmem ht2 q hqU hqc
            rw [hqs, he, hsid]
      · obtain ⟨s0, hfind, htr⟩ := hInv node sid2 h3
        refine ⟨s0, ?_, htr⟩
        show alistFind (alistSet st.sessions (s.session_id.getD fb) s) sid2 = some s0
        rw [alistFind_set_ne _ _ _ _ he]
        exact hfind
    · refine ⟨s, ?_, ?_⟩
      · show alistFind (alistSet st.sessions (s.session_id.getD fb) s) sid2 = some s
        rw [h3]
        exact alistFind_set_self _ _ _
      · exact truthy_of_toolNodes (List.ne_nil_of_mem hnode)
  · intro node sid2 h2
    have h3 : sid2 ∈ contribList st node ∨
        (sid2 = s.session_id.getD fb ∧ node ∈ sessionToolNodes s) :=
      mem_contrib_fold h2
    rcases h3 with h3 | ⟨h3, hnode⟩
    · exact hBound node sid2 h3
    · refine ⟨(s, fb), hmem, ?_, ?_⟩
      · unfold contributes
        simp [List.isEmpty_iff, List.ne_nil_of_mem hnode]
      · rw [hsid, h3]

theorem contrib_empty (node : String) : contribList GraphIndex.empty node = [] := rfl

theorem contribInv_empty : ContribInv GraphIndex.empty := by
  intro node sid h
  rw [contrib_empty] at h
  simp at h

theorem contribBound_empty (U : List (Session × String)) :
    ContribBound GraphIndex.empty U := by
  intro node sid h
  rw [contrib_empty] at h
  simp at h

theorem add_sessions_fold (U : List (Session × String)) (hU : FreshFallbacks U)
    (pairs : List (Session × String)) :
    ∀ st : GraphIndex, (∀ p ∈ pairs, p ∈ U) → ContribInv st → ContribBound st U →
      ContribInv (pairs.foldl (fun st p => st.add_session p.1 p.2) st) ∧
      ContribBound (pairs.foldl (fun st p => st.add_session p.1 p.2) st) U := by
  induction pairs with
  | nil => exact fun st _ hI hB => ⟨hI, hB⟩
  | cons p rest ih =>
    intro st hsub hI hB
    rw [List.foldl_cons]
    have hp : p ∈ U := hsub p (List.mem_cons_self _ _)
    have hstep := add_session_step hU (by simpa using hp) hI hB
    exact ih _ (fun q hq => hsub q (List.mem_cons_of_mem _ hq)) hstep.1 hstep.2

theorem applyOp_step (U : List (Session × String)) (hU : FreshFallbacks U)
    (st : GraphIndex) (op : GIOp) (hsub : ∀ p ∈ opPairs op, p ∈ U)
    (hI : ContribInv st) (hB : ContribBound st U) :
    ContribInv (applyOp st op) ∧ ContribBound (applyOp st op) U := by
  cases op with
  | add s fb =>
    exact add_session_step hU (hsub (s, fb) (List.mem_singleton_self _)) hI hB
  | bld ss =>
    show ContribInv (st.build ss) ∧ ContribBound (st.build ss) U
    unfold GraphIndex.build
    exact add_sessions_fold U hU ss GraphIndex.empty hsub contribInv_empty
      (contribBound_empty U)

theorem fold_ops_inv (U : List (Session × String)) (hU : FreshFallbacks U)
    (ops2 : List GIOp) :
    ∀ st : GraphIndex, (∀ p ∈ allPairs ops2, p ∈ U) → ContribInv st →
      ContribBound st U →
      ContribInv (ops2.foldl applyOp st) ∧ ContribBound (ops2.foldl applyOp st) U := by
  induction ops2 with
  | nil => exact fun st _ hI hB => ⟨hI, hB⟩
  | cons op rest ih =>
    intro st hsub hI hB
    rw [List.foldl_cons]
    have hsub1 : ∀ p ∈ opPairs op, p ∈ U := by
      intro p hp
      exact hsub p (by unfold allPairs; rw [List.flatMap_cons]; exact List.mem_append_left _ hp)
    have hstep := applyOp_step U hU st op hsub1 hI hB
    apply ih _ _ hstep.1 hstep.2
    intro p hp
    exact hsub p (by unfold allPairs at hp ⊢; rw [List.flatMap_cons]; exact List.mem_append_right _ hp)

theorem runOps_inv (ops : List GIOp) (hU : FreshFallbacks (allPairs ops)) :
    ContribInv (runOps ops) ∧ ContribBound (runOps ops) (allPairs ops) :=
  fold_ops_inv (allPairs ops) hU ops GraphIndex.empty (fun _ hp => hp)
    contribInv_empty (contribBound_empty _)

theorem bumpOps_mem_contrib {st : GraphIndex} {ctx : List String}
    {pr : String × Nat} (h : pr ∈ st.bumpOps ctx) :
    ∃ node, pr.1 ∈ contribList st node := by
  unfold GraphIndex.bumpOps at h
  obtain ⟨node, _, hblock⟩ := List.mem_flatMap.mp h
  rcases List.mem_append.mp hblock with hb | hb
  · obtain ⟨sid, hsid, he⟩ := List.mem_map.mp hb
    exact ⟨normalizeNode node, by rw [← he]; exact hsid⟩
  · obtain ⟨nb, _, hnb⟩ := List.mem_flatMap.mp hb
    obtain ⟨sid, hsid, he⟩ := List.mem_map.mp hnb
    exact ⟨nb, by rw [← he]; exact hsid⟩

theorem candidate_mem_contrib {st : GraphIndex} {ctx : List String}
    {p : String × Nat} (h : p ∈ st.candidate_scores ctx) :
    ∃ node, p.1 ∈ contribList st node := by
  have hk : p.1 ∈ (st.candidate_scores ctx).map (fun q => q.1) :=
    List.mem_map.mpr ⟨p, h, rfl⟩
  have hkeys : (st.candidate_scores ctx).map (fun q => q.1) =
      firstOccurrences ((st.bumpOps ctx).map (fun q => q.1)) := by
    unfold GraphIndex.candidate_scores firstOccurrences
    rw [foldBumps_keys]
    rfl
  rw [hkeys] at hk
  rcases mem_dedupAcc hk with hk | hk
  · simp at hk
  · obtain ⟨q, hq, he⟩ := List.mem_map.mp hk
    obtain ⟨node, hnode⟩ := bumpOps_mem_contrib hq
    exact ⟨node, he ▸ hnode⟩

theorem filterMap_eq_map_of_forall {α β : Type} (f : α → Option β) (g : α → β)
    (l : List α) (h : ∀ x ∈ l, f x = some (g x)) : l.filterMap f = l.map g := by
  induction l with
  | nil => rfl
  | cons x t ih =>
    rw [List.filterMap_cons, h x (List.mem_cons_self _ _), List.map_cons,
      ih (fun y hy => h y (List.mem_cons_of_mem _ hy))]

/-- The empty dict, as a session record. -/
def emptySession : Session := ⟨none, none, none, none, none, none⟩

/-- Every contributor identifier is a key of the stored session map (no
truthiness requirement on the stored record). -/
def KeyInv (st : GraphIndex) : Prop :=
  ∀ node sid, sid ∈ contribList st node →
    (alistFind st.sessions sid).isSome = true

theorem add_session_key_step {st : GraphIndex} {s : Session} {fb : String}
    (h : KeyInv st) : KeyInv (st.add_session s fb) := by
  intro node sid2 h2
  rcases mem_contrib_fold h2 with h3 | ⟨h3, hnode⟩
  · by_cases he : sid2 = s.session_id.getD fb
    · show (alistFind (alistSet st.sessions (s.session_id.getD fb) s) sid2).isSome = true
      rw [he, alistFind_set_self]
      rfl
    · show (alistFind (alistSet st.sessions (s.session_id.getD fb) s) sid2).isSome = true
      rw [alistFind_set_ne _ _ _ _ he]
      exact h node sid2 h3
  · show (alistFind (alistSet st.sessions (s.session_id.getD fb) s) sid2).isSome = true
    rw [h3, alistFind_set_self]
    rfl

theorem key_inv_empty : KeyInv GraphIndex.empty := by
  intro node sid h
  rw [contrib_empty] at h
  simp at h

theorem add_sessions_fold_key (pairs : List (Session × String)) :
    ∀ st : GraphIndex, KeyInv st →
      KeyInv (pairs.foldl (fun st p => st.add_session p.1 p.2) st) := by
  induction pairs with
  | nil => exact fun st h => h
  | cons p rest ih =>
    intro st h
    rw [List.foldl_cons]
    exact ih _ (add_session_key_step h)

theorem applyOp_key_step (st : GraphIndex) (op : GIOp) (h : KeyInv st) :
    KeyInv (applyOp st op) := by
  cases op with
  | add s fb => exact add_session_key_step h
  | bld ss =>
    show KeyInv (st.build ss)
    unfold GraphIndex.build
    exact add_sessions_fold_key ss GraphIndex.empty key_inv_empty

theorem runOps_key_inv (ops : List GIOp) : KeyInv (runOps ops) := by
  unfold runOps
  have h : ∀ (ops2 : List GIOp) (st : GraphIndex), KeyInv st →
      KeyInv (ops2.foldl applyOp st) := by
    intro ops2
    induction ops2 with
    | nil => exact fun st h => h
    | cons op rest ih =>
      intro st h
      rw [List.foldl_cons]
      exact ih _ (applyOp_key_step st op h)
  exact h ops GraphIndex.empty key_inv_empty

/-- C10 (amended): after any sequence of `build` / `add_session` calls on a
fresh index, every session identifier occurring in any contributor list is a
key of the stored session map — but the "record no longer present" skip
branch of `query` is *not* unreachable: it fires on a falsy stored record,
which arises when an empty session's fallback identifier (`str(id(...))`)
collides with a stored identifier.  When no such collision occurs
(`FreshFallbacks`) and `max_results` is non-negative, `query` returns
exactly the top `min(max_results, number of scored candidates)` stored
records, in ranked order. -/
theorem query_top_min_records (ops : List GIOp) (ctx : List String) (k : Int) :
    (∀ node sid, sid ∈ contribList (runOps ops) node →
      (alistFind (runOps ops).sessions sid).isSome = true) ∧
    (FreshFallbacks (allPairs ops) → 0 ≤ k →
      ((runOps ops).query ctx k).length =
        min k.toNat ((runOps ops).candidate_scores ctx).length ∧
      (runOps ops).query ctx k =
        ((sortByScoreDesc ((runOps ops).candidate_scores ctx)).take k.toNat).map
          (fun p => (alistFind (runOps ops).sessions p.1).getD emptySession)) := by
  refine ⟨runOps_key_inv ops, ?_⟩
  intro hU hk
  obtain ⟨hinv, hbound⟩ := runOps_inv ops hU
  by_cases hc : ctx = []
  · subst hc
    have hcand : (runOps ops).candidate_scores [] = [] := rfl
    rw [hcand]
    constructor
    · rw [GraphIndex.query, if_pos rfl]
      simp
    · rw [GraphIndex.query, if_pos rfl]
      simp [sortByScoreDesc]
  · have hall : ∀ p ∈ (sortByScoreDesc ((runOps ops).candidate_scores ctx)).take k.toNat,
        (fun p : String × Nat =>
          match alistFind (runOps ops).sessions p.1 with
          | some s => if s.truthy then some s else none
          | none => none) p =
        some ((alistFind (runOps ops).sessions p.1).getD emptySession) := by
      intro p hp
      have hp2 : p ∈ sortByScoreDesc ((runOps ops).candidate_scores ctx) :=
        List.mem_of_mem_take hp
      have hp3 : p ∈ (runOps ops).candidate_scores ctx := mem_sortByScoreDesc.mp hp2
      obtain ⟨node, hnode⟩ := candidate_mem_contrib hp3
      obtain ⟨s, hfind, htr⟩ := hinv node p.1 hnode
      dsimp only
      rw [hfind]
      simp [htr]
    have hquery : (runOps ops).query ctx k =
        ((sortByScoreDesc ((runOps ops).candidate_scores ctx)).take k.toNat).map
          (fun p => (alistFind (runOps ops).sessions p.1).getD emptySession) := by
      rw [GraphIndex.query, if_neg hc]
      dsimp only
      rw [show pySliceTake k (sortByScoreDesc ((runOps ops).candidate_scores ctx)) =
          (sortByScoreDesc ((runOps ops).candidate_scores ctx)).take k.toNat from by
        unfold pySliceTake; rw [if_neg (by omega)]]
      exact filterMap_eq_map_of_forall _ _ _ hall
    refine ⟨?_, hquery⟩
    rw [hquery, List.length_map, List.length_take, length_sortByScoreDesc]

/-- C10 counterexample: store a session under the digit-string identifier
`"140230018"`, then `add_session` an empty session whose `id()` fallback is
that same string — the truthy record is overwritten by the falsy empty dict,
the contributor entry survives, and the skip branch fires: `query` returns
no records although there is one scored candidate, refuting "the skip branch
is unreachable and query returns exactly the top
min(max_results, candidates) records". -/
theorem query_skip_branch_fires :
    ("140230018" ∈ contribList
      (runOps [GIOp.add (mkSession "140230018" ["a"]) "f1",
        GIOp.add emptySession "140230018"]) "tool:a") ∧
    ((runOps [GIOp.add (mkSession "140230018" ["a"]) "f1",
        GIOp.add emptySession "140230018"]).candidate_scores ["tool:a"]).length = 1 ∧
    (runOps [GIOp.add (mkSession "140230018" ["a"]) "f1",
        GIOp.add emptySession "140230018"]).query ["tool:a"] 1 = [] ∧
    ¬((runOps [GIOp.add (mkSession "140230018" ["a"]) "f1",
          GIOp.add emptySession "140230018"]).query ["tool:a"] 1).length =
        min (1 : Int).toNat
          ((runOps [GIOp.add (mkSession "140230018" ["a"]) "f1",
            GIOp.add emptySession "140230018"]).candidate_scores ["tool:a"]).length := by
  exact ⟨by decide, by decide, by decide, by decide⟩

theorem query_top_min_records_witness :
    (("1" ∈ contribList
        (runOps [GIOp.bld [(mkSession "1" ["a"], "f1"), (mkSession "2" ["a"], "f2")]])
        "tool:a") ∧
      (alistFind
        (runOps [GIOp.bld [(mkSession "1" ["a"], "f1"),
          (mkSession "2" ["a"], "f2")]]).sessions "1").isSome = true) ∧
    (FreshFallbacks (allPairs
        [GIOp.bld [(mkSession "1" ["a"], "f1"), (mkSession "2" ["a"], "f2")]]) ∧
      (0 : Int) ≤ 1) ∧
    ((runOps [GIOp.bld [(mkSession "1" ["a"], "f1"), (mkSession "2" ["a"], "f2")]]).query
        ["tool:a"] 1).length =
      min (1 : Int).toNat
        ((runOps [GIOp.bld [(mkSession "1" ["a"], "f1"),
          (mkSession "2" ["a"], "f2")]]).candidate_scores ["tool:a"]).length :=
  ⟨⟨by decide,
    (query_top_min_records
      [GIOp.bld [(mkSession "1" ["a"], "f1"), (mkSession "2" ["a"], "f2")]]
      ["tool:a"] 1).1 "tool:a" "1" (by decide)⟩,
    ⟨by unfold FreshFallbacks; decide, by decide⟩,
    ((query_top_min_records
      [GIOp.bld [(mkSession "1" ["a"], "f1"), (mkSession "2" ["a"], "f2")]]
      ["tool:a"] 1).2 (by unfold FreshFallbacks; decide) (by decide)).1⟩
